import Mathlib

/-!
Verification of the cut-projection engine of `pyomo/gdp/plugins/cuttingplane.py`.

The linear constraint representation used by the code is a dict
`{'lower': float-or-None, 'upper': float-or-None, 'body': map}` where `body`
maps variable handles (plus the sentinel `None` for the constant term) to
coefficients.  We model variable handles as natural numbers, the sentinel as
`Option.none`, numbers as rationals, and the body map as an association list
(the dict's insertion order).  Fallible operations return `Except`.
-/

namespace CuttingPlane

/-- A key of a constraint body: `some v` is a variable handle, `none` is the
sentinel under which the constant term is stored. -/
abbrev Key := Option ℕ

/-- A constraint body: association list from keys to coefficients, mirroring
the `ComponentMap` used by the code (unique keys, insertion order). -/
abbrev Body := List (Key × ℚ)

/-- The code's linear constraint representation
`{'body': ..., 'lower': ..., 'upper': ...}` (see `get_linear_constraint_repn`). -/
structure LinCons where
  body : Body
  lower : Option ℚ
  upper : Option ℚ
  deriving DecidableEq

/-- Keys of a body, in order. -/
def keysOf (b : Body) : List Key := b.map Prod.fst

/-- `body.get(k)`: coefficient stored under `k`, if any (first binding). -/
def getCoef (b : Body) (k : Key) : Option ℚ :=
  match b with
  | [] => none
  | p :: rest => if p.1 = k then some p.2 else getCoef rest k

/-- Remove every binding of one key from a key list (proof infrastructure
for summing over key lists). -/
def removeKey (k : Key) : List Key → List Key
  | [] => []
  | x :: rest => if x = k then removeKey k rest else x :: removeKey k rest

/-- Value of a key under an assignment of the variables: the sentinel key
always contributes with weight `1` (it holds the constant term). -/
def keyWeight (σ : ℕ → ℚ) : Key → ℚ
  | none => 1
  | some v => σ v

/-- Value of a body under an assignment: sum of `coefficient * key value`. -/
def evalBody (σ : ℕ → ℚ) (b : Body) : ℚ :=
  (b.map (fun p => p.2 * keyWeight σ p.1)).sum

/-- A point satisfies a row when the body value lies within the present
bounds (`lower <= body <= upper`). -/
def satRow (σ : ℕ → ℚ) (r : LinCons) : Bool :=
  (match r.lower with
   | none => true
   | some l => decide (l ≤ evalBody σ r.body)) &&
  (match r.upper with
   | none => true
   | some u => decide (evalBody σ r.body ≤ u))

/-- `scalar_multiply_linear_constraint(cons, scalar)`: multiply every
coefficient (the constant entry included) by `scalar`; for `scalar >= 0`
scale the present bounds in place, otherwise flip the bound sides. -/
def scalar_multiply_linear_constraint (cons : LinCons) (scalar : ℚ) : LinCons :=
  let body := cons.body.map (fun p => (p.1, p.2 * scalar))
  if 0 ≤ scalar then
    { body := body
      lower := cons.lower.map (· * scalar)
      upper := cons.upper.map (· * scalar) }
  else
    match cons.lower, cons.upper with
    | some l, u => { body := body, lower := u.map (scalar * ·), upper := some (scalar * l) }
    | none, some u => { body := body, lower := some (scalar * u), upper := none }
    | none, none => { body := body, lower := none, upper := none }

/-- The two ways `add_linear_constraints` can fail: indexing the constant
sentinel of a body that lacks it (Python `KeyError`), and the explicit
`RuntimeError` raised when neither bound side is carried by both rows. -/
inductive AddError where
  | keyError
  | boundsError
  deriving DecidableEq

/-- Coefficient of `k` in the sum body built by `add_linear_constraints`. -/
def addVal (b1 b2 : Body) (k : Key) : ℚ :=
  match getCoef b1 k, getCoef b2 k with
  | some c1, some c2 => c1 + c2
  | some c1, none => c1
  | none, some c2 => c2
  | none, none => 0

/-- `add_linear_constraints(cons1, cons2)`: sum over the union of the two
bodies' keys (a coefficient missing on one side counts as 0, the constant
sentinel is indexed directly on both sides), summing a bound side only when
both rows carry it and raising when neither side does. -/
def add_linear_constraints (cons1 cons2 : LinCons) : Except AddError LinCons :=
  let keys := (keysOf cons1.body ++ keysOf cons2.body).dedup
  if none ∈ keys ∧
      ¬((getCoef cons1.body none).isSome ∧ (getCoef cons2.body none).isSome) then
    .error .keyError
  else
    let lower : Option ℚ :=
      match cons1.lower, cons2.lower with
      | some l1, some l2 => some (l1 + l2)
      | _, _ => none
    let upper : Option ℚ :=
      match cons1.upper, cons2.upper with
      | some u1, some u2 => some (u1 + u2)
      | _, _ => none
    if lower.isNone ∧ upper.isNone then
      .error .boundsError
    else
      .ok { body := keys.map (fun k => (k, addVal cons1.body cons2.body k))
            lower := lower
            upper := upper }

/-- Destination of one row in the sorting loop of `fm_elimination`. -/
inductive RowClass where
  | leq (r : LinCons)
  | geq (r : LinCons)
  | waiting (r : LinCons)
  | dropped
  deriving DecidableEq

/-- One row of the sorting loop of `fm_elimination`: rows not mentioning the
leaving variable wait unchanged; a lower-bounded row is scaled by
`-1/coef` (coef negative) into the leq bucket or by `1/coef` (coef
positive) into the geq bucket; otherwise an upper-bounded row is scaled by
`-1/coef` (coef positive, flipping) into the leq bucket or by `1/coef`
(coef negative, flipping) into the geq bucket; a row with neither bound
falls through. -/
def fm_classify (theVar : ℕ) (cons : LinCons) : RowClass :=
  match getCoef cons.body (some theVar) with
  | none => .waiting cons
  | some c =>
    if c = 0 then .waiting cons
    else if cons.lower.isSome then
      if c < 0 then .leq (scalar_multiply_linear_constraint cons (-1 / c))
      else .geq (scalar_multiply_linear_constraint cons (1 / c))
    else if cons.upper.isSome then
      if 0 < c then .leq (scalar_multiply_linear_constraint cons (-1 / c))
      else .geq (scalar_multiply_linear_constraint cons (1 / c))
    else .dropped

/-- The whole sorting loop: distribute the rows into the leq bucket, the geq
bucket and the waiting list. -/
def fm_partition (theVar : ℕ) : List LinCons → List LinCons × List LinCons × List LinCons
  | [] => ([], [], [])
  | cons :: rest =>
    let p := fm_partition theVar rest
    match fm_classify theVar cons with
    | .leq r => (r :: p.1, p.2.1, p.2.2)
    | .geq r => (p.1, r :: p.2.1, p.2.2)
    | .waiting r => (p.1, p.2.1, r :: p.2.2)
    | .dropped => p

/-- Inner loop of the pairing step: add one leq row to every geq row. -/
def pairRow (l : LinCons) : List LinCons → Except AddError (List LinCons)
  | [] => .ok []
  | g :: gs =>
    match add_linear_constraints l g with
    | .error e => .error e
    | .ok s =>
      match pairRow l gs with
      | .error e => .error e
      | .ok rest => .ok (s :: rest)

/-- Pairing step of `fm_elimination`: every leq row is added to every geq
row. -/
def pairSums : List LinCons → List LinCons → Except AddError (List LinCons)
  | [], _ => .ok []
  | l :: ls, geqs =>
    match pairRow l geqs with
    | .error e => .error e
    | .ok first =>
      match pairSums ls geqs with
      | .error e => .error e
      | .ok rest => .ok (first ++ rest)

/-- `fm_elimination(constraints, vars_to_eliminate)`: eliminate the variables
one at a time; each step sorts the rows, pairs every leq row with every geq
row, and continues on the pair sums together with the waiting rows. -/
def fm_elimination : List LinCons → List ℕ → Except AddError (List LinCons)
  | constraints, [] => .ok constraints
  | constraints, theVar :: rest =>
    match pairSums (fm_partition theVar constraints).1 (fm_partition theVar constraints).2.1 with
    | .error e => .error e
    | .ok pairs => fm_elimination (pairs ++ (fm_partition theVar constraints).2.2) rest

/-- Preprocessing of `fourier_motzkin_elimination`: every equality row (both
bounds set) is mutated in place to keep only its lower bound, and a copy
keeping only the upper bound is appended at the end. -/
def fm_preprocess (constraints : List LinCons) : List LinCons :=
  constraints.map
    (fun c => if c.lower.isSome ∧ c.upper.isSome then { c with upper := none } else c)
  ++ (constraints.filter (fun c => c.lower.isSome && c.upper.isSome)).map
    (fun c => { c with lower := none })

/-- `fourier_motzkin_elimination(constraints, vars_to_eliminate)`: split
equalities, then run the recursive elimination. -/
def fourier_motzkin_elimination (constraints : List LinCons) (vars : List ℕ) :
    Except AddError (List LinCons) :=
  fm_elimination (fm_preprocess constraints) vars

/-- Data of one active constraint as seen by `_create_cuts`: its bounds, the
current value of its body, and the gradient of its body at the current
point. -/
structure EvalCons where
  lower : Option ℚ
  upper : Option ℚ
  bodyVal : ℚ
  grad : List ℚ
  deriving DecidableEq

/-- `constraint_tight(model, constraint)`: `-1` for a lower bound attained or
violated, `+1` for an upper bound attained or violated, summed. -/
def constraint_tight (c : EvalCons) : ℤ :=
  let ans : ℤ := 0
  let ans :=
    match c.lower with
    | some l => if c.bodyVal ≤ l then ans - 1 else ans
    | none => ans
  match c.upper with
  | some u => if u ≤ c.bodyVal then ans + 1 else ans
  | none => ans

/-- The normal-vector accumulation of `_create_cuts`: constraints with a zero
multiplier are skipped, the others contribute `multiplier * gradient`. -/
def normal_vectors (cs : List EvalCons) : List (List ℚ) :=
  (cs.filter (fun c => constraint_tight c ≠ 0)).map
    (fun c => c.grad.map (fun g => (constraint_tight c : ℚ) * g))

/-- State owned by the loop of `_generate_cuttingplanes`: the previous
relaxed-BigM objective value (`none` standing for the initial `+inf`) and
the two growing cut containers (cuts as opaque handles). -/
structure LoopState where
  prev_obj : Option ℚ
  rBigM_cuts : List ℕ
  bigM_cuts : List ℕ
  deriving DecidableEq

/-- Result of `_create_cuts` as seen by the loop: the BigM rows and the
relaxed-BigM rows of the cut candidate. -/
structure CutPair where
  bigM : List ℕ
  rBigM : List ℕ
  deriving DecidableEq

/-- External inputs consumed by one iteration: the relaxed-BigM solve status
and objective value, the separation objective value, and the cut candidate
(`none` when the generator returned no valid cut). -/
structure IterData where
  solve_normal : Bool
  objVal : ℚ
  sepObjVal : ℚ
  cutsResult : Option CutPair
  deriving DecidableEq

/-- The improvement test of the loop:
`improving = math.isinf(obj_diff) or (abs(obj_diff) > epsilon if
abs(rBigM_objVal) < 1 else abs(obj_diff/prev_obj) > epsilon)` with
`obj_diff = prev_obj - rBigM_objVal`. -/
def improving_test (prev_obj : Option ℚ) (objVal eps : ℚ) : Bool :=
  match prev_obj with
  | none => true
  | some p =>
    if |objVal| < 1 then decide (eps < |p - objVal|)
    else decide (eps < |(p - objVal) / p|)

/-- Whether one iteration falls through to the next (`next`) or ends the
loop (`halt`: a `return`, a `break`, or the `while improving` test
failing at the top of the next pass). -/
inductive StepOut where
  | halt (s : LoopState)
  | next (s : LoopState)
  deriving DecidableEq

/-- One iteration of the `while improving` loop of
`_generate_cuttingplanes`: stop on a non-normal solve; compute `improving`;
stop before creating any cut when the separation objective is below
epsilon; stop when no cut candidate is returned; otherwise always extend
the relaxed-BigM cut container, extend the BigM cut container only when
improving, record the objective value, and stop when not improving. -/
def loop_step (eps : ℚ) (s : LoopState) (it : IterData) : StepOut :=
  if !it.solve_normal then .halt s
  else
    let improving := improving_test s.prev_obj it.objVal eps
    if |it.sepObjVal| < eps then .halt s
    else
      match it.cutsResult with
      | none => .halt s
      | some cp =>
        let s1 := { s with rBigM_cuts := s.rBigM_cuts ++ cp.rBigM }
        let s2 := if improving then { s1 with bigM_cuts := s1.bigM_cuts ++ cp.bigM } else s1
        let s3 := { s2 with prev_obj := some it.objVal }
        if improving then .next s3 else .halt s3

/-- Run the loop on a stream of iteration inputs. -/
def run_loop (eps : ℚ) : LoopState → List IterData → LoopState
  | s, [] => s
  | s, it :: rest =>
    match loop_step eps s it with
    | .halt s' => s'
    | .next s' => run_loop eps s' rest

/-- The state at loop entry: `prev_obj = float("inf")`, no cuts yet. -/
def init_state : LoopState := ⟨none, [], []⟩

/-- Rows carried into `fm_elimination` after the equality-splitting
preprocessing have at most one bound set. -/
def oneSided (r : LinCons) : Prop := ¬(r.lower.isSome ∧ r.upper.isSome)

/-- The leaving variable's coefficient in a row is absent or exactly 0. -/
def coefZero (v : ℕ) (r : LinCons) : Prop :=
  getCoef r.body (some v) = none ∨ getCoef r.body (some v) = some 0

/-- A point satisfies every row of a system. -/
def satAll (σ : ℕ → ℚ) (rows : List LinCons) : Prop :=
  ∀ r ∈ rows, satRow σ r = true

/-! ### Helper lemmas -/

theorem getCoef_map_keys (L : List Key) (f : Key → ℚ) (k : Key) :
    getCoef (L.map (fun k' => (k', f k'))) k = if k ∈ L then some (f k) else none := by
  induction L with
  | nil => simp [getCoef]
  | cons k0 rest ih =>
    by_cases hk : k0 = k
    · subst hk
      simp [getCoef]
    · simp only [List.map_cons, getCoef, if_neg hk, ih, List.mem_cons]
      rcases eq_or_ne k k0 with h | h
      · exact absurd h.symm hk
      · simp [h]

theorem addVal_eq (b1 b2 : Body) (k : Key) :
    addVal b1 b2 k = (getCoef b1 k).getD 0 + (getCoef b2 k).getD 0 := by
  unfold addVal
  rcases getCoef b1 k with _ | c1 <;> rcases getCoef b2 k with _ | c2 <;> simp

theorem getCoef_isSome_iff_mem (b : Body) (k : Key) :
    (getCoef b k).isSome ↔ k ∈ keysOf b := by
  induction b with
  | nil => simp [getCoef, keysOf]
  | cons p rest ih =>
    by_cases hk : p.1 = k
    · simp [getCoef, keysOf, hk]
    · simp only [getCoef, if_neg hk, ih, keysOf, List.map_cons, List.mem_cons]
      rcases eq_or_ne k p.1 with h | h
      · exact absurd h.symm hk
      · simp [h]

theorem scale_body (cons : LinCons) (s : ℚ) :
    (scalar_multiply_linear_constraint cons s).body
      = cons.body.map (fun p => (p.1, p.2 * s)) := by
  unfold scalar_multiply_linear_constraint
  by_cases hs : 0 ≤ s
  · simp [hs]
  · rcases cons.lower with _ | l <;> rcases cons.upper with _ | u <;> simp [hs]

theorem scale_bounds_nonneg (cons : LinCons) {s : ℚ} (hs : 0 ≤ s) :
    (scalar_multiply_linear_constraint cons s).lower = cons.lower.map (· * s) ∧
    (scalar_multiply_linear_constraint cons s).upper = cons.upper.map (· * s) := by
  unfold scalar_multiply_linear_constraint
  simp [hs]

theorem scale_bounds_neg (cons : LinCons) {s : ℚ} (hs : s < 0) :
    (scalar_multiply_linear_constraint cons s).lower = cons.upper.map (s * ·) ∧
    (scalar_multiply_linear_constraint cons s).upper = cons.lower.map (s * ·) := by
  unfold scalar_multiply_linear_constraint
  rcases cons.lower with _ | l <;> rcases cons.upper with _ | u <;>
    simp [hs, not_le.mpr hs]

theorem getCoef_map_mul (b : Body) (s : ℚ) (k : Key) :
    getCoef (b.map (fun p => (p.1, p.2 * s))) k = (getCoef b k).map (· * s) := by
  induction b with
  | nil => simp [getCoef]
  | cons p rest ih =>
    by_cases hk : p.1 = k
    · simp [getCoef, hk]
    · simp [getCoef, hk, ih]

theorem getCoef_scale (cons : LinCons) (s : ℚ) (k : Key) :
    getCoef (scalar_multiply_linear_constraint cons s).body k
      = (getCoef cons.body k).map (· * s) := by
  rw [scale_body, getCoef_map_mul]

theorem classify_waiting_iff (v : ℕ) (cons r : LinCons) :
    fm_classify v cons = .waiting r ↔
      r = cons ∧ (getCoef cons.body (some v) = none ∨ getCoef cons.body (some v) = some 0) := by
  unfold fm_classify
  rcases hc : getCoef cons.body (some v) with _ | c
  · simp [eq_comm]
  · by_cases h0 : c = 0
    · subst h0
      simp [eq_comm]
    · simp only [if_neg h0]
      split_ifs <;> simp [h0, Option.some_inj, eq_comm]

set_option maxRecDepth 8000 in
theorem classify_leq_iff (v : ℕ) (cons r : LinCons) :
    fm_classify v cons = .leq r ↔
      ∃ c, getCoef cons.body (some v) = some c ∧ c ≠ 0 ∧
        r = scalar_multiply_linear_constraint cons (-1 / c) ∧
        ((cons.lower.isSome ∧ c < 0) ∨
          (¬cons.lower.isSome ∧ cons.upper.isSome ∧ 0 < c)) := by
  unfold fm_classify
  rcases hc : getCoef cons.body (some v) with _ | c
  · simp
  · simp only [Option.some_inj, exists_eq_left']
    by_cases h0 : c = 0
    · subst h0
      simp
    · rw [if_neg h0]
      split_ifs with hl hneg hu hpos
      · rw [RowClass.leq.injEq]
        constructor
        · intro h
          exact ⟨h0, h.symm, Or.inl ⟨hl, hneg⟩⟩
        · rintro ⟨-, h, -⟩
          exact h.symm
      · constructor
        · intro h
          exact absurd h (by simp)
        · rintro ⟨-, -, ⟨-, h2⟩ | ⟨h1, -, -⟩⟩
          · exact absurd h2 hneg
          · exact absurd hl h1
      · rw [RowClass.leq.injEq]
        constructor
        · intro h
          exact ⟨h0, h.symm, Or.inr ⟨hl, hu, hpos⟩⟩
        · rintro ⟨-, h, -⟩
          exact h.symm
      · constructor
        · intro h
          exact absurd h (by simp)
        · rintro ⟨-, -, ⟨h1, -⟩ | ⟨-, -, h2⟩⟩
          · exact absurd h1 hl
          · exact absurd h2 hpos
      · constructor
        · intro h
          exact absurd h (by simp)
        · rintro ⟨-, -, ⟨h1, -⟩ | ⟨-, h2, -⟩⟩
          · exact absurd h1 hl
          · exact absurd h2 hu

set_option maxRecDepth 8000 in
theorem classify_geq_iff (v : ℕ) (cons r : LinCons) :
    fm_classify v cons = .geq r ↔
      ∃ c, getCoef cons.body (some v) = some c ∧ c ≠ 0 ∧
        r = scalar_multiply_linear_constraint cons (1 / c) ∧
        ((cons.lower.isSome ∧ 0 < c) ∨
          (¬cons.lower.isSome ∧ cons.upper.isSome ∧ c < 0)) := by
  unfold fm_classify
  rcases hc : getCoef cons.body (some v) with _ | c
  · simp
  · simp only [Option.some_inj, exists_eq_left']
    by_cases h0 : c = 0
    · subst h0
      simp
    · rw [if_neg h0]
      have hcs : c < 0 ∨ 0 < c := lt_or_gt_of_ne (fun h => h0 h)
      split_ifs with hl hneg hu hpos
      · constructor
        · intro h
          exact absurd h (by simp)
        · rintro ⟨-, -, ⟨-, h2⟩ | ⟨h1, -, -⟩⟩
          · exact absurd h2 (asymm hneg)
          · exact absurd hl h1
      · rw [RowClass.geq.injEq]
        have hcpos : 0 < c := by
          rcases hcs with h | h
          · exact absurd h hneg
          · exact h
        constructor
        · intro h
          exact ⟨h0, h.symm, Or.inl ⟨hl, hcpos⟩⟩
        · rintro ⟨-, h, -⟩
          exact h.symm
      · constructor
        · intro h
          exact absurd h (by simp)
        · rintro ⟨-, -, ⟨h1, -⟩ | ⟨-, -, h2⟩⟩
          · exact absurd h1 hl
          · exact absurd h2 (asymm hpos)
      · rw [RowClass.geq.injEq]
        have hcneg : c < 0 := by
          rcases hcs with h | h
          · exact h
          · exact absurd h hpos
        constructor
        · intro h
          exact ⟨h0, h.symm, Or.inr ⟨hl, hu, hcneg⟩⟩
        · rintro ⟨-, h, -⟩
          exact h.symm
      · constructor
        · intro h
          exact absurd h (by simp)
        · rintro ⟨-, -, ⟨h1, -⟩ | ⟨-, h2, -⟩⟩
          · exact absurd h1 hl
          · exact absurd h2 hu

theorem partition_mem_leq {v : ℕ} {rows : List LinCons} {r : LinCons}
    (h : r ∈ (fm_partition v rows).1) :
    ∃ cons ∈ rows, fm_classify v cons = .leq r := by
  induction rows with
  | nil => simp [fm_partition] at h
  | cons x rest ih =>
    rw [fm_partition] at h
    rcases hcls : fm_classify v x with y | y | y | _ <;> rw [hcls] at h
    · rcases List.mem_cons.mp h with rfl | h
      · exact ⟨x, List.mem_cons_self x rest, hcls⟩
      · obtain ⟨c, hc, hcl⟩ := ih h
        exact ⟨c, List.mem_cons_of_mem x hc, hcl⟩
    all_goals
      obtain ⟨c, hc, hcl⟩ := ih h
      exact ⟨c, List.mem_cons_of_mem x hc, hcl⟩

theorem partition_mem_geq {v : ℕ} {rows : List LinCons} {r : LinCons}
    (h : r ∈ (fm_partition v rows).2.1) :
    ∃ cons ∈ rows, fm_classify v cons = .geq r := by
  induction rows with
  | nil => simp [fm_partition] at h
  | cons x rest ih =>
    rw [fm_partition] at h
    rcases hcls : fm_classify v x with y | y | y | _ <;> rw [hcls] at h
    · obtain ⟨c, hc, hcl⟩ := ih h
      exact ⟨c, List.mem_cons_of_mem x hc, hcl⟩
    · rcases List.mem_cons.mp h with rfl | h
      · exact ⟨x, List.mem_cons_self x rest, hcls⟩
      · obtain ⟨c, hc, hcl⟩ := ih h
        exact ⟨c, List.mem_cons_of_mem x hc, hcl⟩
    all_goals
      obtain ⟨c, hc, hcl⟩ := ih h
      exact ⟨c, List.mem_cons_of_mem x hc, hcl⟩

theorem partition_mem_wait {v : ℕ} {rows : List LinCons} {r : LinCons}
    (h : r ∈ (fm_partition v rows).2.2) :
    ∃ cons ∈ rows, fm_classify v cons = .waiting r := by
  induction rows with
  | nil => simp [fm_partition] at h
  | cons x rest ih =>
    rw [fm_partition] at h
    rcases hcls : fm_classify v x with y | y | y | _ <;> rw [hcls] at h
    case waiting =>
      rcases List.mem_cons.mp h with rfl | h
      · exact ⟨x, List.mem_cons_self x rest, hcls⟩
      · obtain ⟨c, hc, hcl⟩ := ih h
        exact ⟨c, List.mem_cons_of_mem x hc, hcl⟩
    all_goals
      obtain ⟨c, hc, hcl⟩ := ih h
      exact ⟨c, List.mem_cons_of_mem x hc, hcl⟩

theorem mem_partition_leq {v : ℕ} {rows : List LinCons} {cons r : LinCons}
    (hmem : cons ∈ rows) (hcls : fm_classify v cons = .leq r) :
    r ∈ (fm_partition v rows).1 := by
  induction rows with
  | nil => simp at hmem
  | cons x rest ih =>
    rw [fm_partition]
    rcases List.mem_cons.mp hmem with rfl | hmem'
    · rw [hcls]
      exact List.mem_cons_self r _
    · rcases hx : fm_classify v x with y | y | y | _ <;>
        first
          | exact List.mem_cons_of_mem y (ih hmem')
          | exact ih hmem'

theorem mem_partition_geq {v : ℕ} {rows : List LinCons} {cons r : LinCons}
    (hmem : cons ∈ rows) (hcls : fm_classify v cons = .geq r) :
    r ∈ (fm_partition v rows).2.1 := by
  induction rows with
  | nil => simp at hmem
  | cons x rest ih =>
    rw [fm_partition]
    rcases List.mem_cons.mp hmem with rfl | hmem'
    · rw [hcls]
      exact List.mem_cons_self r _
    · rcases hx : fm_classify v x with y | y | y | _ <;>
        first
          | exact List.mem_cons_of_mem y (ih hmem')
          | exact ih hmem'

theorem mem_partition_wait {v : ℕ} {rows : List LinCons} {cons r : LinCons}
    (hmem : cons ∈ rows) (hcls : fm_classify v cons = .waiting r) :
    r ∈ (fm_partition v rows).2.2 := by
  induction rows with
  | nil => simp at hmem
  | cons x rest ih =>
    rw [fm_partition]
    rcases List.mem_cons.mp hmem with rfl | hmem'
    · rw [hcls]
      exact List.mem_cons_self r _
    · rcases hx : fm_classify v x with y | y | y | _ <;>
        first
          | exact List.mem_cons_of_mem y (ih hmem')
          | exact ih hmem'

theorem leq_shape {v : ℕ} {rows : List LinCons} {r : LinCons}
    (hone : ∀ x ∈ rows, oneSided x) (h : r ∈ (fm_partition v rows).1) :
    r.lower.isSome ∧ r.upper = none ∧ getCoef r.body (some v) = some (-1) := by
  obtain ⟨cons, hmem, hcls⟩ := partition_mem_leq h
  obtain ⟨c, hc, h0, rfl, hcase⟩ := (classify_leq_iff v cons r).mp hcls
  have hcoef : getCoef (scalar_multiply_linear_constraint cons (-1 / c)).body (some v)
      = some (-1) := by
    rw [getCoef_scale, hc, Option.map_some']
    congr 1
    field_simp
  rcases hcase with ⟨hl, hneg⟩ | ⟨hln, hu, hpos⟩
  · have hs : 0 ≤ -1 / c := by
      rw [le_div_iff_of_neg hneg]
      norm_num
    obtain ⟨hlo, hup⟩ := scale_bounds_nonneg cons hs
    have hupn : cons.upper = none :=
      Option.not_isSome_iff_eq_none.mp (fun hub => hone cons hmem ⟨hl, hub⟩)
    refine ⟨?_, ?_, hcoef⟩
    · rw [hlo]
      rcases Option.isSome_iff_exists.mp hl with ⟨l, hle⟩
      rw [hle]
      rfl
    · rw [hup, hupn]
      rfl
  · have hs : -1 / c < 0 := by
      rw [div_neg_iff]
      right
      norm_num
      exact hpos
    obtain ⟨hlo, hup⟩ := scale_bounds_neg cons hs
    have hlon : cons.lower = none := Option.not_isSome_iff_eq_none.mp hln
    refine ⟨?_, ?_, hcoef⟩
    · rw [hlo]
      rcases Option.isSome_iff_exists.mp hu with ⟨u, hue⟩
      rw [hue]
      rfl
    · rw [hup, hlon]
      rfl

theorem geq_shape {v : ℕ} {rows : List LinCons} {r : LinCons}
    (hone : ∀ x ∈ rows, oneSided x) (h : r ∈ (fm_partition v rows).2.1) :
    r.lower.isSome ∧ r.upper = none ∧ getCoef r.body (some v) = some 1 := by
  obtain ⟨cons, hmem, hcls⟩ := partition_mem_geq h
  obtain ⟨c, hc, h0, rfl, hcase⟩ := (classify_geq_iff v cons r).mp hcls
  have hcoef : getCoef (scalar_multiply_linear_constraint cons (1 / c)).body (some v)
      = some 1 := by
    rw [getCoef_scale, hc, Option.map_some']
    congr 1
    field_simp
  rcases hcase with ⟨hl, hpos⟩ | ⟨hln, hu, hneg⟩
  · have hs : 0 ≤ 1 / c := le_of_lt (by positivity)
    obtain ⟨hlo, hup⟩ := scale_bounds_nonneg cons hs
    have hupn : cons.upper = none :=
      Option.not_isSome_iff_eq_none.mp (fun hub => hone cons hmem ⟨hl, hub⟩)
    refine ⟨?_, ?_, hcoef⟩
    · rw [hlo]
      rcases Option.isSome_iff_exists.mp hl with ⟨l, hle⟩
      rw [hle]
      rfl
    · rw [hup, hupn]
      rfl
  · have hs : 1 / c < 0 := by
      rw [div_neg_iff]
      left
      exact ⟨by norm_num, hneg⟩
    obtain ⟨hlo, hup⟩ := scale_bounds_neg cons hs
    have hlon : cons.lower = none := Option.not_isSome_iff_eq_none.mp hln
    refine ⟨?_, ?_, hcoef⟩
    · rw [hlo]
      rcases Option.isSome_iff_exists.mp hu with ⟨u, hue⟩
      rw [hue]
      rfl
    · rw [hup, hlon]
      rfl

theorem wait_shape {v : ℕ} {rows : List LinCons} {r : LinCons}
    (h : r ∈ (fm_partition v rows).2.2) :
    r ∈ rows ∧ (getCoef r.body (some v) = none ∨ getCoef r.body (some v) = some 0) := by
  obtain ⟨cons, hmem, hcls⟩ := partition_mem_wait h
  obtain ⟨rfl, hcond⟩ := (classify_waiting_iff v cons r).mp hcls
  exact ⟨hmem, hcond⟩

theorem add_ok_fields {c1 c2 s : LinCons} (h : add_linear_constraints c1 c2 = .ok s) :
    s.body = ((keysOf c1.body ++ keysOf c2.body).dedup).map
        (fun k => (k, addVal c1.body c2.body k)) ∧
    s.lower = (match c1.lower, c2.lower with
      | some l1, some l2 => some (l1 + l2)
      | _, _ => none) ∧
    s.upper = (match c1.upper, c2.upper with
      | some u1, some u2 => some (u1 + u2)
      | _, _ => none) := by
  simp only [add_linear_constraints] at h
  split_ifs at h with h1 h2
  cases h
  exact ⟨rfl, rfl, rfl⟩

theorem add_error_elim {c1 c2 : LinCons} {e : AddError}
    (h1 : c1.lower.isSome) (h2 : c2.lower.isSome)
    (h : add_linear_constraints c1 c2 = .error e) : e = .keyError := by
  rcases Option.isSome_iff_exists.mp h1 with ⟨l1, hl1⟩
  rcases Option.isSome_iff_exists.mp h2 with ⟨l2, hl2⟩
  simp only [add_linear_constraints] at h
  split_ifs at h with hk hb
  · cases h
    rfl
  · rw [hl1, hl2] at hb
    simp at hb

theorem add_ok_of_shapes {c1 c2 : LinCons}
    (h1 : c1.lower.isSome) (h2 : c2.lower.isSome) {s : LinCons}
    (h : add_linear_constraints c1 c2 = .ok s) (hu2 : c2.upper = none) :
    s.lower.isSome ∧ s.upper = none := by
  obtain ⟨-, hl, hup⟩ := add_ok_fields h
  rcases Option.isSome_iff_exists.mp h1 with ⟨l1, hl1⟩
  rcases Option.isSome_iff_exists.mp h2 with ⟨l2, hl2⟩
  rw [hl1, hl2] at hl
  rw [hu2] at hup
  constructor
  · rw [hl]
    rfl
  · rw [hup]
    rcases c1.upper with _ | u1 <;> rfl

theorem pairRow_mem {l : LinCons} {gs : List LinCons} {out : List LinCons}
    (h : pairRow l gs = .ok out) :
    (∀ s ∈ out, ∃ g ∈ gs, add_linear_constraints l g = .ok s) ∧
    (∀ g ∈ gs, ∃ s ∈ out, add_linear_constraints l g = .ok s) := by
  induction gs generalizing out with
  | nil =>
    cases h
    simp
  | cons g rest ih =>
    rw [pairRow] at h
    rcases ha : add_linear_constraints l g with e | s0 <;> rw [ha] at h
    · exact absurd h (by simp)
    · rcases hp : pairRow l rest with e | out0 <;> rw [hp] at h
      · exact absurd h (by simp)
      · cases h
        obtain ⟨ih1, ih2⟩ := ih hp
        constructor
        · intro s hs
          rcases List.mem_cons.mp hs with rfl | hs
          · exact ⟨g, List.mem_cons_self g rest, ha⟩
          · obtain ⟨g', hg', ha'⟩ := ih1 s hs
            exact ⟨g', List.mem_cons_of_mem g hg', ha'⟩
        · intro g' hg'
          rcases List.mem_cons.mp hg' with rfl | hg'
          · exact ⟨s0, List.mem_cons_self s0 out0, ha⟩
          · obtain ⟨s', hs', ha'⟩ := ih2 g' hg'
            exact ⟨s', List.mem_cons_of_mem s0 hs', ha'⟩

theorem pairSums_mem {ls gs : List LinCons} {out : List LinCons}
    (h : pairSums ls gs = .ok out) :
    (∀ s ∈ out, ∃ l ∈ ls, ∃ g ∈ gs, add_linear_constraints l g = .ok s) ∧
    (∀ l ∈ ls, ∀ g ∈ gs, ∃ s ∈ out, add_linear_constraints l g = .ok s) := by
  induction ls generalizing out with
  | nil =>
    cases h
    simp
  | cons l rest ih =>
    rw [pairSums] at h
    rcases hr : pairRow l gs with e | first <;> rw [hr] at h
    · exact absurd h (by simp)
    · rcases hp : pairSums rest gs with e | out0 <;> rw [hp] at h
      · exact absurd h (by simp)
      · cases h
        obtain ⟨hrow1, hrow2⟩ := pairRow_mem hr
        obtain ⟨ih1, ih2⟩ := ih hp
        constructor
        · intro s hs
          rcases List.mem_append.mp hs with hs | hs
          · obtain ⟨g, hg, ha⟩ := hrow1 s hs
            exact ⟨l, List.mem_cons_self l rest, g, hg, ha⟩
          · obtain ⟨l', hl', g, hg, ha⟩ := ih1 s hs
            exact ⟨l', List.mem_cons_of_mem l hl', g, hg, ha⟩
        · intro l' hl' g hg
          rcases List.mem_cons.mp hl' with rfl | hl'
          · obtain ⟨s, hs, ha⟩ := hrow2 g hg
            exact ⟨s, List.mem_append_left _ hs, ha⟩
          · obtain ⟨s, hs, ha⟩ := ih2 l' hl' g hg
            exact ⟨s, List.mem_append_right _ hs, ha⟩

theorem pairRow_error {l : LinCons} {gs : List LinCons} {e : AddError}
    (h : pairRow l gs = .error e) :
    ∃ g ∈ gs, add_linear_constraints l g = .error e := by
  induction gs with
  | nil => exact absurd h (by simp [pairRow])
  | cons g rest ih =>
    rw [pairRow] at h
    rcases ha : add_linear_constraints l g with e' | s0 <;> rw [ha] at h
    · cases h
      exact ⟨g, List.mem_cons_self g rest, ha⟩
    · rcases hp : pairRow l rest with e' | out0 <;> rw [hp] at h
      · cases h
        obtain ⟨g', hg', ha'⟩ := ih hp
        exact ⟨g', List.mem_cons_of_mem g hg', ha'⟩
      · exact absurd h (by simp)

theorem pairSums_error {ls gs : List LinCons} {e : AddError}
    (h : pairSums ls gs = .error e) :
    ∃ l ∈ ls, ∃ g ∈ gs, add_linear_constraints l g = .error e := by
  induction ls with
  | nil => exact absurd h (by simp [pairSums])
  | cons l rest ih =>
    rw [pairSums] at h
    rcases hr : pairRow l gs with e' | first <;> rw [hr] at h
    · cases h
      obtain ⟨g, hg, ha⟩ := pairRow_error hr
      exact ⟨l, List.mem_cons_self l rest, g, hg, ha⟩
    · rcases hp : pairSums rest gs with e' | out0 <;> rw [hp] at h
      · cases h
        obtain ⟨l', hl', g, hg, ha⟩ := ih hp
        exact ⟨l', List.mem_cons_of_mem l hl', g, hg, ha⟩
      · exact absurd h (by simp)

theorem oneSided_of_lowerOnly {r : LinCons} (h : r.lower.isSome ∧ r.upper = none) :
    oneSided r := by
  intro hb
  rw [h.2] at hb
  exact absurd hb.2 (by simp)

theorem step_oneSided {v : ℕ} {rows pairs : List LinCons}
    (hone : ∀ r ∈ rows, oneSided r)
    (hps : pairSums (fm_partition v rows).1 (fm_partition v rows).2.1 = .ok pairs) :
    ∀ r ∈ pairs ++ (fm_partition v rows).2.2, oneSided r := by
  intro r hr
  rcases List.mem_append.mp hr with hr | hr
  · obtain ⟨l, hl, g, hg, ha⟩ := (pairSums_mem hps).1 r hr
    have hls := leq_shape hone hl
    have hgs := geq_shape hone hg
    exact oneSided_of_lowerOnly (add_ok_of_shapes hls.1 hgs.1 ha hgs.2.1)
  · exact hone r (wait_shape hr).1

theorem fm_elim_ne_boundsError (vars : List ℕ) (rows : List LinCons)
    (hone : ∀ r ∈ rows, oneSided r) :
    fm_elimination rows vars ≠ .error .boundsError := by
  induction vars generalizing rows with
  | nil => simp [fm_elimination]
  | cons v rest ih =>
    intro h
    unfold fm_elimination at h
    rcases hps : pairSums (fm_partition v rows).1 (fm_partition v rows).2.1 with e | pairs <;>
      rw [hps] at h
    · cases h
      obtain ⟨l, hl, g, hg, ha⟩ := pairSums_error hps
      have hls := leq_shape hone hl
      have hgs := geq_shape hone hg
      exact absurd (add_error_elim hls.1 hgs.1 ha) (by simp)
    · exact absurd h (ih _ (step_oneSided hone hps))

theorem preprocess_oneSided (rows : List LinCons) :
    ∀ r ∈ fm_preprocess rows, oneSided r := by
  intro r hr
  unfold fm_preprocess at hr
  rcases List.mem_append.mp hr with h | h
  · obtain ⟨c, hc, rfl⟩ := List.mem_map.mp h
    by_cases hb : c.lower.isSome ∧ c.upper.isSome
    · rw [if_pos hb]
      intro hcon
      exact absurd hcon.2 (by simp)
    · rw [if_neg hb]
      exact hb
  · obtain ⟨c, hc, rfl⟩ := List.mem_map.mp h
    intro hcon
    exact absurd hcon.1 (by simp)

/-! ### Claim theorems: the elimination step -/

/-- C3: in an elimination step, an affected one-sided row (nonzero
coefficient `c` on the leaving variable) is scaled so that coefficient
becomes exactly `-1` or `+1` and is classified by the sign/side rules: a
lower-bounded row with `c < 0` or an upper-bounded row with `c > 0` goes
to the leq bucket with coefficient `-1`; a lower-bounded row with
`c > 0` or an upper-bounded row with `c < 0` goes to the geq bucket with
coefficient `+1`; a row whose coefficient on the leaving variable is zero
or absent passes through unchanged. -/
theorem claim_C3 (theVar : ℕ) (cons : LinCons) (c : ℚ)
    (hone : ¬(cons.lower.isSome ∧ cons.upper.isSome))
    (hc : getCoef cons.body (some theVar) = some c) (hc0 : c ≠ 0) :
    ((cons.lower.isSome ∧ c < 0) →
      fm_classify theVar cons = .leq (scalar_multiply_linear_constraint cons (-1 / c)) ∧
      getCoef (scalar_multiply_linear_constraint cons (-1 / c)).body (some theVar)
        = some (-1)) ∧
    ((cons.lower.isSome ∧ 0 < c) →
      fm_classify theVar cons = .geq (scalar_multiply_linear_constraint cons (1 / c)) ∧
      getCoef (scalar_multiply_linear_constraint cons (1 / c)).body (some theVar)
        = some 1) ∧
    ((cons.upper.isSome ∧ 0 < c) →
      fm_classify theVar cons = .leq (scalar_multiply_linear_constraint cons (-1 / c)) ∧
      getCoef (scalar_multiply_linear_constraint cons (-1 / c)).body (some theVar)
        = some (-1)) ∧
    ((cons.upper.isSome ∧ c < 0) →
      fm_classify theVar cons = .geq (scalar_multiply_linear_constraint cons (1 / c)) ∧
      getCoef (scalar_multiply_linear_constraint cons (1 / c)).body (some theVar)
        = some 1) ∧
    (∀ r : LinCons,
      (getCoef r.body (some theVar) = none ∨ getCoef r.body (some theVar) = some 0) →
      fm_classify theVar r = .waiting r) := by
  have hm1 : getCoef (scalar_multiply_linear_constraint cons (-1 / c)).body (some theVar)
      = some (-1) := by
    rw [getCoef_scale, hc, Option.map_some']
    congr 1
    field_simp
  have hp1 : getCoef (scalar_multiply_linear_constraint cons (1 / c)).body (some theVar)
      = some 1 := by
    rw [getCoef_scale, hc, Option.map_some']
    congr 1
    field_simp
  refine ⟨?_, ?_, ?_, ?_, ?_⟩
  · rintro ⟨hl, hneg⟩
    refine ⟨?_, hm1⟩
    simp only [fm_classify, hc]
    rw [if_neg hc0, if_pos hl, if_pos hneg]
  · rintro ⟨hl, hpos⟩
    refine ⟨?_, hp1⟩
    simp only [fm_classify, hc]
    rw [if_neg hc0, if_pos hl, if_neg (asymm hpos)]
  · rintro ⟨hu, hpos⟩
    have hln : ¬cons.lower.isSome := fun h => hone ⟨h, hu⟩
    refine ⟨?_, hm1⟩
    simp only [fm_classify, hc]
    rw [if_neg hc0, if_neg hln, if_pos hu, if_pos hpos]
  · rintro ⟨hu, hneg⟩
    have hln : ¬cons.lower.isSome := fun h => hone ⟨h, hu⟩
    refine ⟨?_, hp1⟩
    simp only [fm_classify, hc]
    rw [if_neg hc0, if_neg hln, if_pos hu, if_neg (asymm hneg)]
  · intro r hr
    exact (classify_waiting_iff theVar r r).mpr ⟨rfl, hr⟩

/-- C3 witness: a concrete lower-bounded row with negative coefficient is
normalized into the leq bucket with coefficient exactly `-1`. -/
theorem claim_C3_witness :
    fm_classify 0 ⟨[(some 0, -2), (none, 0)], some 4, none⟩ =
      .leq (scalar_multiply_linear_constraint ⟨[(some 0, -2), (none, 0)], some 4, none⟩
        (-1 / -2)) ∧
    getCoef (scalar_multiply_linear_constraint ⟨[(some 0, -2), (none, 0)], some 4, none⟩
        (-1 / -2)).body (some 0) = some (-1) :=
  (claim_C3 0 ⟨[(some 0, -2), (none, 0)], some 4, none⟩ (-2)
      (by with_unfolding_all decide) (by with_unfolding_all rfl)
      (by with_unfolding_all decide)).1
    ⟨rfl, by with_unfolding_all decide⟩

/-- C10 (implicit): every row placed in the leq or geq bucket of an
elimination step over one-sided rows carries a lower bound and no upper
bound, so the pairs handed to `add_linear_constraints` both carry lower
bounds and the incompatible-bound (`RuntimeError`) branch is unreachable
from `fm_elimination`; through the equality-splitting preprocessing,
`fourier_motzkin_elimination` can never raise it on any input. -/
theorem claim_C10 :
    (∀ (v : ℕ) (rows : List LinCons),
      (∀ r ∈ rows, ¬(r.lower.isSome ∧ r.upper.isSome)) →
      (∀ r ∈ (fm_partition v rows).1, r.lower.isSome ∧ r.upper = none) ∧
      (∀ r ∈ (fm_partition v rows).2.1, r.lower.isSome ∧ r.upper = none)) ∧
    (∀ (rows : List LinCons) (vars : List ℕ),
      (∀ r ∈ rows, ¬(r.lower.isSome ∧ r.upper.isSome)) →
      fm_elimination rows vars ≠ .error .boundsError) ∧
    (∀ (rows : List LinCons) (vars : List ℕ),
      fourier_motzkin_elimination rows vars ≠ .error .boundsError) := by
  refine ⟨fun v rows hone => ?_, fun rows vars hone => ?_, fun rows vars => ?_⟩
  · constructor
    · intro r hr
      obtain ⟨h1, h2, -⟩ := leq_shape hone hr
      exact ⟨h1, h2⟩
    · intro r hr
      obtain ⟨h1, h2, -⟩ := geq_shape hone hr
      exact ⟨h1, h2⟩
  · exact fm_elim_ne_boundsError vars rows hone
  · exact fm_elim_ne_boundsError vars (fm_preprocess rows) (preprocess_oneSided rows)

/-- C10 witness: the bucket shapes and the absence of the bounds error on a
concrete one-sided system. -/
theorem claim_C10_witness :
    ((∀ r ∈ (fm_partition 0 [⟨[(some 0, 1), (none, 0)], some 0, none⟩,
        ⟨[(some 0, -1), (none, 0)], some (-5), none⟩]).1,
        r.lower.isSome ∧ r.upper = none) ∧
      (∀ r ∈ (fm_partition 0 [⟨[(some 0, 1), (none, 0)], some 0, none⟩,
        ⟨[(some 0, -1), (none, 0)], some (-5), none⟩]).2.1,
        r.lower.isSome ∧ r.upper = none)) ∧
    fm_elimination [⟨[(some 0, 1), (none, 0)], some 0, none⟩,
      ⟨[(some 0, -1), (none, 0)], some (-5), none⟩] [0] ≠ .error .boundsError :=
  ⟨claim_C10.1 0 [⟨[(some 0, 1), (none, 0)], some 0, none⟩,
      ⟨[(some 0, -1), (none, 0)], some (-5), none⟩] (by with_unfolding_all decide),
    claim_C10.2.1 [⟨[(some 0, 1), (none, 0)], some 0, none⟩,
      ⟨[(some 0, -1), (none, 0)], some (-5), none⟩] [0] (by with_unfolding_all decide)⟩

theorem coefZero_scale {v : ℕ} {cons : LinCons} (s : ℚ) (h : coefZero v cons) :
    coefZero v (scalar_multiply_linear_constraint cons s) := by
  unfold coefZero at h ⊢
  rw [getCoef_scale]
  rcases h with h | h
  · rw [h]
    left
    rfl
  · rw [h]
    right
    rw [Option.map_some']
    congr 1
    ring

theorem fm_ok_cons {rows out : List LinCons} {v : ℕ} {rest : List ℕ}
    (h : fm_elimination rows (v :: rest) = .ok out) :
    ∃ pairs, pairSums (fm_partition v rows).1 (fm_partition v rows).2.1 = .ok pairs ∧
      fm_elimination (pairs ++ (fm_partition v rows).2.2) rest = .ok out := by
  unfold fm_elimination at h
  rcases hps : pairSums (fm_partition v rows).1 (fm_partition v rows).2.1 with e | pairs <;>
    rw [hps] at h
  · exact absurd h (by simp)
  · exact ⟨pairs, rfl, h⟩

theorem coefZero_add {w : ℕ} {l g s : LinCons}
    (ha : add_linear_constraints l g = .ok s)
    (hl : coefZero w l) (hg : coefZero w g) : coefZero w s := by
  obtain ⟨hbody, -, -⟩ := add_ok_fields ha
  unfold coefZero
  rw [hbody, getCoef_map_keys]
  by_cases hmem : (some w : Key) ∈ (keysOf l.body ++ keysOf g.body).dedup
  · rw [if_pos hmem]
    right
    congr 1
    unfold addVal
    rcases hl with h | h <;> rcases hg with h' | h' <;> simp [h, h']
  · rw [if_neg hmem]
    left
    rfl

theorem coef_add_cancel {v : ℕ} {l g s : LinCons}
    (ha : add_linear_constraints l g = .ok s)
    (hl : getCoef l.body (some v) = some (-1)) (hg : getCoef g.body (some v) = some 1) :
    coefZero v s := by
  obtain ⟨hbody, -, -⟩ := add_ok_fields ha
  unfold coefZero
  rw [hbody, getCoef_map_keys]
  have hmem : (some v : Key) ∈ (keysOf l.body ++ keysOf g.body).dedup := by
    rw [List.mem_dedup, List.mem_append]
    left
    exact (getCoef_isSome_iff_mem l.body (some v)).mp (by rw [hl]; rfl)
  rw [if_pos hmem]
  right
  congr 1
  unfold addVal
  rw [hl, hg]
  norm_num

theorem step_coefZero_new {v : ℕ} {rows pairs : List LinCons}
    (hps : pairSums (fm_partition v rows).1 (fm_partition v rows).2.1 = .ok pairs) :
    ∀ r ∈ pairs ++ (fm_partition v rows).2.2, coefZero v r := by
  intro r hr
  rcases List.mem_append.mp hr with hr | hr
  · obtain ⟨l, hl, g, hg, ha⟩ := (pairSums_mem hps).1 r hr
    obtain ⟨consl, -, hcl⟩ := partition_mem_leq hl
    obtain ⟨cl, hccl, h0l, rfl, -⟩ := (classify_leq_iff v consl l).mp hcl
    obtain ⟨consg, -, hcg⟩ := partition_mem_geq hg
    obtain ⟨cg, hccg, h0g, rfl, -⟩ := (classify_geq_iff v consg g).mp hcg
    have hlc : getCoef (scalar_multiply_linear_constraint consl (-1 / cl)).body (some v)
        = some (-1) := by
      rw [getCoef_scale, hccl, Option.map_some']
      congr 1
      field_simp
    have hgc : getCoef (scalar_multiply_linear_constraint consg (1 / cg)).body (some v)
        = some 1 := by
      rw [getCoef_scale, hccg, Option.map_some']
      congr 1
      field_simp
    exact coef_add_cancel ha hlc hgc
  · exact (wait_shape hr).2

theorem step_coefZero_pres {w : ℕ} {v : ℕ} {rows pairs : List LinCons}
    (hall : ∀ r ∈ rows, coefZero w r)
    (hps : pairSums (fm_partition v rows).1 (fm_partition v rows).2.1 = .ok pairs) :
    ∀ r ∈ pairs ++ (fm_partition v rows).2.2, coefZero w r := by
  intro r hr
  rcases List.mem_append.mp hr with hr | hr
  · obtain ⟨l, hl, g, hg, ha⟩ := (pairSums_mem hps).1 r hr
    obtain ⟨consl, hml, hcl⟩ := partition_mem_leq hl
    obtain ⟨cl, -, -, rfl, -⟩ := (classify_leq_iff v consl l).mp hcl
    obtain ⟨consg, hmg, hcg⟩ := partition_mem_geq hg
    obtain ⟨cg, -, -, rfl, -⟩ := (classify_geq_iff v consg g).mp hcg
    exact coefZero_add ha (coefZero_scale _ (hall consl hml)) (coefZero_scale _ (hall consg hmg))
  · exact hall r (wait_shape hr).1

theorem fm_coefZero_pres {w : ℕ} (vars : List ℕ) (rows out : List LinCons)
    (hall : ∀ r ∈ rows, coefZero w r) (hok : fm_elimination rows vars = .ok out) :
    ∀ r ∈ out, coefZero w r := by
  induction vars generalizing rows with
  | nil =>
    cases hok
    exact hall
  | cons v rest ih =>
    obtain ⟨pairs, hps, hrec⟩ := fm_ok_cons hok
    exact ih _ (step_coefZero_pres hall hps) hrec

theorem fm_coefZero (vars : List ℕ) (rows out : List LinCons) (v : ℕ)
    (hv : v ∈ vars) (hok : fm_elimination rows vars = .ok out) :
    ∀ r ∈ out, coefZero v r := by
  induction vars generalizing rows with
  | nil => simp at hv
  | cons v' rest ih =>
    obtain ⟨pairs, hps, hrec⟩ := fm_ok_cons hok
    rcases List.mem_cons.mp hv with rfl | hv'
    · exact fm_coefZero_pres rest _ out (step_coefZero_new hps) hrec
    · exact ih _ hv' hrec

/-! ### Claim theorems: occurrence of eliminated variables -/

/-- C2 counterexample: eliminating `x` from `x >= 0` and `-x >= -5`
succeeds, yet the single returned row still carries the eliminated
variable as a key of its body (with canceled coefficient 0), so the
eliminated variable does occur in a returned row's body. -/
theorem claim_C2_counterexample :
    fourier_motzkin_elimination
        [⟨[(some 0, 1), (none, 0)], some 0, none⟩,
          ⟨[(some 0, -1), (none, 0)], some (-5), none⟩] [0]
      = .ok [⟨[(some 0, 0), (none, 0)], some (-5), none⟩] ∧
    some 0 ∈ keysOf [((some 0 : Key), (0 : ℚ)), (none, 0)] := by
  constructor
  · with_unfolding_all rfl
  · with_unfolding_all decide

/-- C2 amended: every returned row of `fourier_motzkin_elimination` carries
each eliminated variable with coefficient exactly 0 when its key is still
present at all — no eliminated variable occurs with a nonzero
coefficient in any returned row's body. -/
theorem claim_C2_amended (rows : List LinCons) (vars : List ℕ) (out : List LinCons)
    (hok : fourier_motzkin_elimination rows vars = .ok out) :
    ∀ r ∈ out, ∀ v ∈ vars,
      getCoef r.body (some v) = none ∨ getCoef r.body (some v) = some 0 := by
  intro r hr v hv
  exact fm_coefZero vars (fm_preprocess rows) out v hv hok r hr

/-- C2 amended witness: the concrete projection above carries the
eliminated variable only with coefficient 0. -/
theorem claim_C2_amended_witness :
    getCoef [((some 0 : Key), (0 : ℚ)), (none, 0)] (some 0) = none ∨
    getCoef [((some 0 : Key), (0 : ℚ)), (none, 0)] (some 0) = some 0 :=
  claim_C2_amended
    [⟨[(some 0, 1), (none, 0)], some 0, none⟩, ⟨[(some 0, -1), (none, 0)], some (-5), none⟩]
    [0] [⟨[(some 0, 0), (none, 0)], some (-5), none⟩] (by with_unfolding_all rfl)
    ⟨[(some 0, 0), (none, 0)], some (-5), none⟩ (List.mem_singleton.mpr rfl)
    0 (List.mem_singleton.mpr rfl)

/-! ### Claim theorems: linear-form arithmetic -/

/-- C5: `scalar_multiply_linear_constraint` multiplies every coefficient
(the constant entry included) and every present bound by the scalar; for a
nonnegative scalar the bounds stay on their sides, for a negative scalar
the sides are flipped (the new upper bound is the scaled old lower bound
and the new lower bound is the scaled old upper bound, an absent bound
staying absent on the flipped side). -/
theorem claim_C5 (cons : LinCons) (s : ℚ) :
    (scalar_multiply_linear_constraint cons s).body
        = cons.body.map (fun p => (p.1, p.2 * s)) ∧
    (0 ≤ s →
      (scalar_multiply_linear_constraint cons s).lower = cons.lower.map (· * s) ∧
      (scalar_multiply_linear_constraint cons s).upper = cons.upper.map (· * s)) ∧
    (s < 0 →
      (scalar_multiply_linear_constraint cons s).upper = cons.lower.map (s * ·) ∧
      (scalar_multiply_linear_constraint cons s).lower = cons.upper.map (s * ·)) := by
  unfold scalar_multiply_linear_constraint
  by_cases hs : 0 ≤ s
  · simp [hs, not_lt.mpr hs]
  · rcases cons.lower with _ | l <;> rcases cons.upper with _ | u <;>
      simp [hs, lt_of_not_ge hs]

/-- C5 witness: a concrete negative scaling. -/
theorem claim_C5_witness :
    ((-2 : ℚ) < 0) ∧
    ((scalar_multiply_linear_constraint ⟨[(none, 2)], some 1, some 3⟩ (-2)).upper
        = (some (1 : ℚ)).map ((-2) * ·) ∧
      (scalar_multiply_linear_constraint ⟨[(none, 2)], some 1, some 3⟩ (-2)).lower
        = (some (3 : ℚ)).map ((-2) * ·)) :=
  ⟨by with_unfolding_all decide,
    (claim_C5 ⟨[(none, 2)], some 1, some 3⟩ (-2)).2.2 (by with_unfolding_all decide)⟩

/-- C4: `add_linear_constraints` (on rows that carry the constant sentinel
entry, as every row built by the code does) errors exactly when the rows
are bound-incompatible: not both lower-bounded and not both
upper-bounded.  On compatible rows it returns the sum over the union of
the keys, treating a coefficient missing on one side as 0, summing the
constant entries, and summing each bound side carried by both rows. -/
theorem claim_C4 (c1 c2 : LinCons)
    (h1 : (getCoef c1.body none).isSome) (h2 : (getCoef c2.body none).isSome) :
    ((∃ e, add_linear_constraints c1 c2 = .error e) ↔
      ¬(c1.lower.isSome ∧ c2.lower.isSome) ∧ ¬(c1.upper.isSome ∧ c2.upper.isSome)) ∧
    ∀ res, add_linear_constraints c1 c2 = .ok res →
      (∀ k : Key, getCoef res.body k =
        if k ∈ keysOf c1.body ∨ k ∈ keysOf c2.body
        then some ((getCoef c1.body k).getD 0 + (getCoef c2.body k).getD 0)
        else none) ∧
      res.lower = (match c1.lower, c2.lower with
        | some l1, some l2 => some (l1 + l2)
        | _, _ => none) ∧
      res.upper = (match c1.upper, c2.upper with
        | some u1, some u2 => some (u1 + u2)
        | _, _ => none) := by
  unfold add_linear_constraints
  have hkey : ¬(none ∈ (keysOf c1.body ++ keysOf c2.body).dedup ∧
      ¬((getCoef c1.body none).isSome ∧ (getCoef c2.body none).isSome)) := by
    simp [h1, h2]
  rw [if_neg hkey]
  set lower : Option ℚ :=
    match c1.lower, c2.lower with
    | some l1, some l2 => some (l1 + l2)
    | _, _ => none with hlow
  set upper : Option ℚ :=
    match c1.upper, c2.upper with
    | some u1, some u2 => some (u1 + u2)
    | _, _ => none with hup
  have hlowiff : lower.isNone ↔ ¬(c1.lower.isSome ∧ c2.lower.isSome) := by
    rw [hlow]
    rcases c1.lower with _ | l1 <;> rcases c2.lower with _ | l2 <;> simp
  have hupiff : upper.isNone ↔ ¬(c1.upper.isSome ∧ c2.upper.isSome) := by
    rw [hup]
    rcases c1.upper with _ | u1 <;> rcases c2.upper with _ | u2 <;> simp
  by_cases hbad : lower.isNone ∧ upper.isNone
  · rw [if_pos hbad]
    constructor
    · constructor
      · intro _
        exact ⟨hlowiff.mp hbad.1, hupiff.mp hbad.2⟩
      · intro _
        exact ⟨.boundsError, rfl⟩
    · intro res hres
      exact absurd hres (by simp)
  · rw [if_neg hbad]
    constructor
    · constructor
      · intro ⟨e, he⟩
        exact absurd he (by simp)
      · intro ⟨hl, hu⟩
        exact absurd ⟨hlowiff.mpr hl, hupiff.mpr hu⟩ hbad
    · intro res hres
      have hres' : res = ⟨(keysOf c1.body ++ keysOf c2.body).dedup.map
          (fun k => (k, addVal c1.body c2.body k)), lower, upper⟩ := by
        cases hres
        rfl
      subst hres'
      refine ⟨fun k => ?_, rfl, rfl⟩
      rw [getCoef_map_keys]
      by_cases hk : k ∈ keysOf c1.body ∨ k ∈ keysOf c2.body
      · rw [if_pos (by simpa using hk), if_pos hk, addVal_eq]
      · rw [if_neg (by simpa using hk), if_neg hk]

/-- C4 witness: adding two concrete lower-bounded rows succeeds, with the
eliminated variable's coefficients summed over the key union and the lower
bounds summed. -/
theorem claim_C4_witness :
    (getCoef [((some 0 : Key), (0 : ℚ)), (none, 2)] (some 0) =
      if (some 0 : Key) ∈ keysOf [((some 0 : Key), (1 : ℚ)), (none, 0)] ∨
          (some 0 : Key) ∈ keysOf [((some 0 : Key), (-1 : ℚ)), (none, 2)]
      then some ((getCoef [((some 0 : Key), (1 : ℚ)), (none, 0)] (some 0)).getD 0 +
        (getCoef [((some 0 : Key), (-1 : ℚ)), (none, 2)] (some 0)).getD 0)
      else none) ∧
    (⟨[(some 0, 0), (none, 2)], some 1, none⟩ : LinCons).lower = some ((0 : ℚ) + 1) :=
  have h := (claim_C4 ⟨[(some 0, 1), (none, 0)], some 0, none⟩
      ⟨[(some 0, -1), (none, 2)], some 1, none⟩
      (by with_unfolding_all decide) (by with_unfolding_all decide)).2
    ⟨[(some 0, 0), (none, 2)], some 1, none⟩ (by with_unfolding_all rfl)
  ⟨h.1 (some 0), h.2.1⟩

/-! ### Claim theorems: tightness multipliers -/

/-- C6: `constraint_tight` returns the sum of `-1` (lower bound present and
attained or violated, i.e. `lower >= val`) and `+1` (upper bound present
and attained or violated, i.e. `upper <= val`); an equality constraint
satisfied exactly gets multiplier `0` and is skipped when the normal
vectors are accumulated. -/
theorem claim_C6 :
    (∀ c : EvalCons, constraint_tight c =
        (match c.lower with
         | some l => if c.bodyVal ≤ l then (-1 : ℤ) else 0
         | none => 0)
      + (match c.upper with
         | some u => if u ≤ c.bodyVal then (1 : ℤ) else 0
         | none => 0)) ∧
    (∀ (a : ℚ) (g : List ℚ) (rest : List EvalCons),
      constraint_tight ⟨some a, some a, a, g⟩ = 0 ∧
      normal_vectors (⟨some a, some a, a, g⟩ :: rest) = normal_vectors rest) := by
  have htight : ∀ c : EvalCons, constraint_tight c =
      (match c.lower with
       | some l => if c.bodyVal ≤ l then (-1 : ℤ) else 0
       | none => 0)
    + (match c.upper with
       | some u => if u ≤ c.bodyVal then (1 : ℤ) else 0
       | none => 0) := by
    intro c
    rcases c with ⟨lo, up, val, g⟩
    rcases lo with _ | l <;> rcases up with _ | u <;>
      simp only [constraint_tight] <;> (try split_ifs) <;> omega
  refine ⟨htight, fun a g rest => ?_⟩
  have hzero : constraint_tight ⟨some a, some a, a, g⟩ = 0 := by
    rw [htight]
    simp
  refine ⟨hzero, ?_⟩
  unfold normal_vectors
  rw [List.filter_cons_of_neg (by simp [hzero])]

/-! ### Claim theorems: the iteration loop -/

/-- C9: the improving flag is true when the objective difference
`prev - v` is infinite (previous objective still at its initial
`+infinity`), and otherwise compares `|prev - v|` against epsilon when
`|v| < 1` and `|(prev - v)/prev|` against epsilon when `|v| >= 1`. -/
theorem claim_C9 (p v eps : ℚ) :
    improving_test none v eps = true ∧
    (|v| < 1 → (improving_test (some p) v eps = true ↔ eps < |p - v|)) ∧
    (1 ≤ |v| → (improving_test (some p) v eps = true ↔ eps < |(p - v) / p|)) := by
  refine ⟨rfl, fun hv => ?_, fun hv => ?_⟩
  · simp [improving_test, hv]
  · simp [improving_test, not_lt.mpr hv]

/-- C9 witness: a concrete improving-test evaluation in each regime. -/
theorem claim_C9_witness :
    (|(0 : ℚ)| < 1 →
      (improving_test (some 2) 0 1 = true ↔ (1 : ℚ) < |(2 : ℚ) - 0|)) ∧
    ((1 : ℚ) ≤ |(2 : ℚ)| →
      (improving_test (some 4) 2 1 = true ↔ (1 : ℚ) < |((4 : ℚ) - 2) / 4|)) :=
  ⟨(claim_C9 2 0 1).2.1, (claim_C9 4 2 1).2.2⟩

/-- C7: when the solved separation objective's absolute value is below
epsilon the iteration stops on the spot: the state (both cut containers
included) is returned unchanged, and when this happens on the first
iteration the run ends with zero cuts in both containers. -/
theorem claim_C7 (eps : ℚ) (s : LoopState) (it : IterData) (rest : List IterData)
    (hn : it.solve_normal = true) (hs : |it.sepObjVal| < eps) :
    loop_step eps s it = .halt s ∧
    run_loop eps s (it :: rest) = s ∧
    (run_loop eps init_state (it :: rest)).rBigM_cuts = [] ∧
    (run_loop eps init_state (it :: rest)).bigM_cuts = [] := by
  have hstep : ∀ s' : LoopState, loop_step eps s' it = .halt s' := by
    intro s'
    unfold loop_step
    simp [hn, hs]
  have hrun : ∀ s' : LoopState, run_loop eps s' (it :: rest) = s' := by
    intro s'
    unfold run_loop
    rw [hstep s']
  exact ⟨hstep s, hrun s, by rw [hrun init_state]; rfl, by rw [hrun init_state]; rfl⟩

/-- C7 witness: a concrete first-iteration interior stop generates no cut. -/
theorem claim_C7_witness :
    loop_step 1 ⟨some 5, [0], [1]⟩ ⟨true, 2, 0, some ⟨[7], [8]⟩⟩ = .halt ⟨some 5, [0], [1]⟩ ∧
    run_loop 1 ⟨some 5, [0], [1]⟩ [⟨true, 2, 0, some ⟨[7], [8]⟩⟩] = ⟨some 5, [0], [1]⟩ ∧
    (run_loop 1 init_state [⟨true, 2, 0, some ⟨[7], [8]⟩⟩]).rBigM_cuts = [] ∧
    (run_loop 1 init_state [⟨true, 2, 0, some ⟨[7], [8]⟩⟩]).bigM_cuts = [] :=
  claim_C7 1 ⟨some 5, [0], [1]⟩ ⟨true, 2, 0, some ⟨[7], [8]⟩⟩ []
    rfl (by with_unfolding_all decide)

/-- C8: in an iteration that reaches cut injection the relaxed-BigM rows
are always appended to the relaxed-BigM cut container; the BigM rows are
appended to the BigM cut container only when the iteration's improving
flag is true, and on a non-improving iteration the BigM container is left
unchanged and the loop stops with that state. -/
theorem claim_C8 (eps : ℚ) (s : LoopState) (it : IterData) (rest : List IterData) (cp : CutPair)
    (hn : it.solve_normal = true) (hs : ¬ |it.sepObjVal| < eps) (hc : it.cutsResult = some cp) :
    (improving_test s.prev_obj it.objVal eps = true →
      loop_step eps s it =
        .next ⟨some it.objVal, s.rBigM_cuts ++ cp.rBigM, s.bigM_cuts ++ cp.bigM⟩) ∧
    (improving_test s.prev_obj it.objVal eps = false →
      loop_step eps s it = .halt ⟨some it.objVal, s.rBigM_cuts ++ cp.rBigM, s.bigM_cuts⟩ ∧
      run_loop eps s (it :: rest) = ⟨some it.objVal, s.rBigM_cuts ++ cp.rBigM, s.bigM_cuts⟩) := by
  constructor
  · intro himp
    unfold loop_step
    simp [hn, hs, hc, himp]
  · intro himp
    have hstep : loop_step eps s it = .halt ⟨some it.objVal, s.rBigM_cuts ++ cp.rBigM,
        s.bigM_cuts⟩ := by
      unfold loop_step
      simp [hn, hs, hc, himp]
    refine ⟨hstep, ?_⟩
    unfold run_loop
    rw [hstep]

/-- C8 witness: one improving and one non-improving concrete injection. -/
theorem claim_C8_witness :
    (improving_test (some 5) 2 1 = true →
      loop_step 1 ⟨some 5, [0], [1]⟩ ⟨true, 2, 3, some ⟨[7], [8]⟩⟩ =
        .next ⟨some 2, [0] ++ [8], [1] ++ [7]⟩) ∧
    (improving_test (some 5) 2 1 = false →
      loop_step 1 ⟨some 5, [0], [1]⟩ ⟨true, 2, 3, some ⟨[7], [8]⟩⟩ =
        .halt ⟨some 2, [0] ++ [8], [1]⟩ ∧
      run_loop 1 ⟨some 5, [0], [1]⟩ [⟨true, 2, 3, some ⟨[7], [8]⟩⟩] =
        ⟨some 2, [0] ++ [8], [1]⟩) :=
  claim_C8 1 ⟨some 5, [0], [1]⟩ ⟨true, 2, 3, some ⟨[7], [8]⟩⟩ [] ⟨[7], [8]⟩
    rfl (by with_unfolding_all decide) rfl

/-! ### Semantics lemmas for the projection equivalence -/

theorem satRow_iff (σ : ℕ → ℚ) (r : LinCons) :
    satRow σ r = true ↔
      (∀ l, r.lower = some l → l ≤ evalBody σ r.body) ∧
      (∀ u, r.upper = some u → evalBody σ r.body ≤ u) := by
  unfold satRow
  rcases r.lower with _ | l <;> rcases r.upper with _ | u <;> simp

theorem satRow_lowerOnly (σ : ℕ → ℚ) {r : LinCons} {l : ℚ}
    (hl : r.lower = some l) (hu : r.upper = none) :
    (satRow σ r = true ↔ l ≤ evalBody σ r.body) := by
  unfold satRow
  rw [hl, hu]
  simp

theorem satRow_of_noBounds (σ : ℕ → ℚ) {r : LinCons}
    (hl : r.lower = none) (hu : r.upper = none) : satRow σ r = true := by
  unfold satRow
  rw [hl, hu]
  rfl

theorem qmul_le_pos {s a b : ℚ} (hs : 0 < s) : a * s ≤ b * s ↔ a ≤ b := by
  constructor <;> intro h <;> nlinarith

theorem qmul_le_neg_left {s a e : ℚ} (hs : s < 0) : e * s ≤ s * a ↔ a ≤ e := by
  constructor <;> intro h <;> nlinarith

theorem qmul_le_neg_right {s a e : ℚ} (hs : s < 0) : s * a ≤ e * s ↔ e ≤ a := by
  constructor <;> intro h <;> nlinarith

theorem evalBody_map_mul (σ : ℕ → ℚ) (b : Body) (s : ℚ) :
    evalBody σ (b.map (fun p => (p.1, p.2 * s))) = evalBody σ b * s := by
  induction b with
  | nil => simp [evalBody]
  | cons p rest ih =>
    simp only [evalBody, List.map_cons, List.sum_cons] at ih ⊢
    rw [ih]
    ring

theorem evalBody_scale (σ : ℕ → ℚ) (cons : LinCons) (s : ℚ) :
    evalBody σ (scalar_multiply_linear_constraint cons s).body = evalBody σ cons.body * s := by
  rw [scale_body, evalBody_map_mul]

theorem satRow_scale_pos (σ : ℕ → ℚ) (cons : LinCons) {s : ℚ} (hs : 0 < s) :
    (satRow σ (scalar_multiply_linear_constraint cons s) = true ↔ satRow σ cons = true) := by
  obtain ⟨hlo, hup⟩ := scale_bounds_nonneg cons hs.le
  rcases hl : cons.lower with _ | l <;> rcases hu : cons.upper with _ | u <;>
      rw [hl] at hlo <;> rw [hu] at hup <;>
      unfold satRow <;> rw [hlo, hup, hl, hu] <;>
      simp only [Option.map_some', Option.map_none', Bool.and_eq_true, decide_eq_true_eq,
        Bool.and_true, Bool.true_and, evalBody_scale]
  all_goals simp [qmul_le_pos hs]

theorem satRow_scale_neg (σ : ℕ → ℚ) (cons : LinCons) {s : ℚ} (hs : s < 0) :
    (satRow σ (scalar_multiply_linear_constraint cons s) = true ↔ satRow σ cons = true) := by
  obtain ⟨hlo, hup⟩ := scale_bounds_neg cons hs
  rcases hl : cons.lower with _ | l <;> rcases hu : cons.upper with _ | u <;>
      rw [hl] at hup <;> rw [hu] at hlo <;>
      unfold satRow <;> rw [hlo, hup, hl, hu] <;>
      simp only [Option.map_some', Option.map_none', Bool.and_eq_true, decide_eq_true_eq,
        Bool.and_true, Bool.true_and, evalBody_scale]
  · rw [qmul_le_neg_right hs]
  · rw [qmul_le_neg_left hs]
  · rw [qmul_le_neg_right hs, qmul_le_neg_left hs, and_comm]

theorem getCoef_cons (p : Key × ℚ) (rest : Body) (k : Key) :
    getCoef (p :: rest) k = if p.1 = k then some p.2 else getCoef rest k := rfl

theorem evalBody_cons (σ : ℕ → ℚ) (p : Key × ℚ) (rest : Body) :
    evalBody σ (p :: rest) = p.2 * keyWeight σ p.1 + evalBody σ rest := by
  unfold evalBody
  rw [List.map_cons, List.sum_cons]

theorem evalBody_congr {σ₁ σ₂ : ℕ → ℚ} (b : Body)
    (h : ∀ k ∈ keysOf b, keyWeight σ₁ k = keyWeight σ₂ k) :
    evalBody σ₁ b = evalBody σ₂ b := by
  induction b with
  | nil => rfl
  | cons p rest ih =>
    rw [evalBody_cons, evalBody_cons, h p.1 (by simp [keysOf]),
      ih (fun k hk => h k (by simp only [keysOf, List.map_cons, List.mem_cons]; right; exact hk))]

theorem keyWeight_update_of_ne {σ : ℕ → ℚ} {v : ℕ} {t : ℚ} {k : Key} (h : k ≠ some v) :
    keyWeight (Function.update σ v t) k = keyWeight σ k := by
  rcases k with _ | w
  · rfl
  · unfold keyWeight
    exact Function.update_noteq (fun hw => h (congrArg some hw)) t σ

theorem evalBody_update (b : Body) (hnd : (keysOf b).Nodup) (σ : ℕ → ℚ) (v : ℕ) (t : ℚ) :
    evalBody (Function.update σ v t) b
      = evalBody (Function.update σ v 0) b + ((getCoef b (some v)).getD 0) * t := by
  induction b with
  | nil => simp [evalBody, getCoef]
  | cons p rest ih =>
    simp only [keysOf, List.map_cons, List.nodup_cons] at hnd
    obtain ⟨hp, hrest⟩ := hnd
    rw [evalBody_cons, evalBody_cons, getCoef_cons]
    by_cases hk : p.1 = some v
    · rw [if_pos hk]
      have hnotv : ∀ k ∈ keysOf rest, k ≠ some v := by
        intro k hk' he
        exact hp (by rw [← hk] at he; exact he ▸ hk')
      have hrest0 : ∀ τ : ℚ, evalBody (Function.update σ v τ) rest = evalBody σ rest :=
        fun τ => evalBody_congr rest (fun k hk' => keyWeight_update_of_ne (hnotv k hk'))
      have hwt : keyWeight (Function.update σ v t) p.1 = t := by
        rw [hk]
        unfold keyWeight
        exact Function.update_same v t σ
      have hw0 : keyWeight (Function.update σ v 0) p.1 = 0 := by
        rw [hk]
        unfold keyWeight
        exact Function.update_same v 0 σ
      rw [hwt, hw0, hrest0 t, hrest0 0]
      simp only [Option.getD_some]
      ring
    · rw [if_neg hk]
      have hwt : keyWeight (Function.update σ v t) p.1 = keyWeight σ p.1 :=
        keyWeight_update_of_ne hk
      have hw0 : keyWeight (Function.update σ v 0) p.1 = keyWeight σ p.1 :=
        keyWeight_update_of_ne hk
      rw [hwt, hw0, ih hrest]
      ring

theorem evalBody_self_update (b : Body) (hnd : (keysOf b).Nodup) (σ : ℕ → ℚ) (v : ℕ) :
    evalBody σ b
      = evalBody (Function.update σ v 0) b + ((getCoef b (some v)).getD 0) * σ v := by
  conv_lhs => rw [← Function.update_eq_self v σ]
  exact evalBody_update b hnd σ v (σ v)

theorem evalBody_update_coefZero {r : LinCons} (hnd : (keysOf r.body).Nodup)
    (hz : coefZero v r) (σ : ℕ → ℚ) (t : ℚ) :
    evalBody (Function.update σ v t) r.body = evalBody σ r.body := by
  have h1 := evalBody_update r.body hnd σ v t
  have h2 := evalBody_self_update r.body hnd σ v
  rcases hz with h | h <;> rw [h] at h1 h2 <;> simp at h1 h2 <;> rw [h1, h2]

theorem satRow_update_coefZero {r : LinCons} (hnd : (keysOf r.body).Nodup)
    (hz : coefZero v r) (σ : ℕ → ℚ) (t : ℚ) :
    satRow (Function.update σ v t) r = satRow σ r := by
  unfold satRow
  rw [evalBody_update_coefZero hnd hz σ t]

theorem keysOf_map_mul (b : Body) (s : ℚ) :
    keysOf (b.map (fun p => (p.1, p.2 * s))) = keysOf b := by
  unfold keysOf
  rw [List.map_map]
  rfl

theorem keysOf_scale (cons : LinCons) (s : ℚ) :
    keysOf (scalar_multiply_linear_constraint cons s).body = keysOf cons.body := by
  rw [scale_body, keysOf_map_mul]

theorem keysOf_pairs (L : List Key) (f : Key → ℚ) :
    keysOf (L.map (fun k => (k, f k))) = L := by
  unfold keysOf
  rw [List.map_map]
  exact List.map_id L

theorem sum_map_add (L : List Key) (f g : Key → ℚ) :
    (L.map (fun x => f x + g x)).sum = (L.map f).sum + (L.map g).sum := by
  induction L with
  | nil => simp
  | cons x rest ih =>
    simp only [List.map_cons, List.sum_cons, ih]
    ring

theorem mem_removeKey {x k : Key} {L : List Key} (h : x ∈ removeKey k L) :
    x ∈ L ∧ x ≠ k := by
  induction L with
  | nil => simp [removeKey] at h
  | cons y rest ih =>
    rw [removeKey] at h
    by_cases hy : y = k
    · rw [if_pos hy] at h
      obtain ⟨h1, h2⟩ := ih h
      exact ⟨List.mem_cons_of_mem y h1, h2⟩
    · rw [if_neg hy] at h
      rcases List.mem_cons.mp h with rfl | h'
      · exact ⟨List.mem_cons_self x rest, hy⟩
      · obtain ⟨h1, h2⟩ := ih h'
        exact ⟨List.mem_cons_of_mem y h1, h2⟩

theorem removeKey_mem {x k : Key} {L : List Key} (hx : x ∈ L) (hne : x ≠ k) :
    x ∈ removeKey k L := by
  induction L with
  | nil => simp at hx
  | cons y rest ih =>
    rw [removeKey]
    by_cases hy : y = k
    · rw [if_pos hy]
      rcases List.mem_cons.mp hx with rfl | h'
      · exact absurd hy hne
      · exact ih h'
    · rw [if_neg hy]
      rcases List.mem_cons.mp hx with rfl | h'
      · exact List.mem_cons_self x _
      · exact List.mem_cons_of_mem y (ih h')

theorem removeKey_nodup {k : Key} {L : List Key} (h : L.Nodup) : (removeKey k L).Nodup := by
  induction L with
  | nil => simp [removeKey]
  | cons y rest ih =>
    rw [List.nodup_cons] at h
    rw [removeKey]
    by_cases hy : y = k
    · rw [if_pos hy]
      exact ih h.2
    · rw [if_neg hy]
      rw [List.nodup_cons]
      exact ⟨fun hc => h.1 (mem_removeKey hc).1, ih h.2⟩

theorem removeKey_of_not_mem {k : Key} {L : List Key} (h : k ∉ L) : removeKey k L = L := by
  induction L with
  | nil => rfl
  | cons y rest ih =>
    rw [removeKey, if_neg (fun he => h (by rw [← he]; exact List.mem_cons_self y rest))]
    rw [ih (fun hc => h (List.mem_cons_of_mem y hc))]

theorem perm_cons_removeKey {k : Key} {L : List Key} (hmem : k ∈ L) (hnd : L.Nodup) :
    L.Perm (k :: removeKey k L) := by
  induction L with
  | nil => simp at hmem
  | cons y rest ih =>
    rw [List.nodup_cons] at hnd
    rw [removeKey]
    by_cases hy : y = k
    · subst hy
      rw [if_pos rfl, removeKey_of_not_mem hnd.1]
    · rw [if_neg hy]
      have hk : k ∈ rest := by
        rcases List.mem_cons.mp hmem with rfl | h'
        · exact absurd rfl hy
        · exact h'
      have h1 : (y :: rest).Perm (y :: k :: removeKey k rest) := (ih hk hnd.2).cons y
      have h2 : (y :: k :: removeKey k rest).Perm (k :: y :: removeKey k rest) :=
        List.Perm.swap k y _
      exact h1.trans h2

theorem sum_getD_over (σ : ℕ → ℚ) (b : Body) (L : List Key)
    (hb : (keysOf b).Nodup) (hL : L.Nodup) (hsub : ∀ k ∈ keysOf b, k ∈ L) :
    (L.map (fun k => ((getCoef b k).getD 0) * keyWeight σ k)).sum = evalBody σ b := by
  induction b generalizing L with
  | nil =>
    simp only [getCoef, Option.getD_none, zero_mul, evalBody, List.map_nil, List.sum_nil]
    induction L with
    | nil => simp
    | cons x rest ih => simp [ih (List.Nodup.of_cons hL)]
  | cons p rest ih =>
    simp only [keysOf, List.map_cons, List.nodup_cons] at hb
    obtain ⟨hp, hrest⟩ := hb
    have hmem : p.1 ∈ L := hsub p.1 (by simp [keysOf])
    have hperm : L.Perm (p.1 :: removeKey p.1 L) := perm_cons_removeKey hmem hL
    rw [List.Perm.sum_eq (hperm.map _)]
    simp only [List.map_cons, List.sum_cons]
    have hhead : getCoef (p :: rest) p.1 = some p.2 := by
      rw [getCoef_cons, if_pos rfl]
    have htail : ((removeKey p.1 L).map
          (fun k => ((getCoef (p :: rest) k).getD 0) * keyWeight σ k)).sum
        = ((removeKey p.1 L).map
          (fun k => ((getCoef rest k).getD 0) * keyWeight σ k)).sum := by
      congr 1
      refine List.map_congr_left (fun k hk => ?_)
      have hkne : k ≠ p.1 := (mem_removeKey hk).2
      rw [getCoef_cons, if_neg (fun he => hkne he.symm)]
    rw [hhead, htail]
    rw [ih (removeKey p.1 L) hrest (removeKey_nodup hL)
      (fun k hk => removeKey_mem (hsub k (by
        simp only [keysOf, List.map_cons, List.mem_cons]
        right
        exact hk)) (fun he => hp (by rw [← he]; exact hk)))]
    rw [evalBody_cons]
    simp

theorem add_ok_eval {l g s : LinCons} (ha : add_linear_constraints l g = .ok s)
    (hnl : (keysOf l.body).Nodup) (hng : (keysOf g.body).Nodup) (σ : ℕ → ℚ) :
    evalBody σ s.body = evalBody σ l.body + evalBody σ g.body := by
  obtain ⟨hbody, -, -⟩ := add_ok_fields ha
  rw [hbody]
  have h1 : evalBody σ (((keysOf l.body ++ keysOf g.body).dedup).map
      (fun k => (k, addVal l.body g.body k)))
      = (((keysOf l.body ++ keysOf g.body).dedup).map
        (fun k => addVal l.body g.body k * keyWeight σ k)).sum := by
    unfold evalBody
    rw [List.map_map]
    rfl
  rw [h1]
  have h2 : (((keysOf l.body ++ keysOf g.body).dedup).map
      (fun k => addVal l.body g.body k * keyWeight σ k)).sum
      = (((keysOf l.body ++ keysOf g.body).dedup).map
          (fun k => ((getCoef l.body k).getD 0) * keyWeight σ k)).sum
        + (((keysOf l.body ++ keysOf g.body).dedup).map
          (fun k => ((getCoef g.body k).getD 0) * keyWeight σ k)).sum := by
    rw [← sum_map_add]
    congr 1
    refine List.map_congr_left (fun k _ => ?_)
    rw [addVal_eq]
    ring
  rw [h2, sum_getD_over σ l.body _ hnl (List.nodup_dedup _)
      (fun k hk => by rw [List.mem_dedup]; exact List.mem_append_left _ hk),
    sum_getD_over σ g.body _ hng (List.nodup_dedup _)
      (fun k hk => by rw [List.mem_dedup]; exact List.mem_append_right _ hk)]

theorem le_foldr_max (a : ℚ) (l : List ℚ) : ∀ x ∈ a :: l, x ≤ l.foldr max a := by
  induction l generalizing a with
  | nil => simp
  | cons b rest ih =>
    intro x hx
    rcases List.mem_cons.mp hx with rfl | hx'
    · calc x ≤ rest.foldr max x := ih x x (List.mem_cons_self x rest)
        _ ≤ max b (rest.foldr max x) := le_max_right _ _
        _ = (b :: rest).foldr max x := rfl
    · rcases List.mem_cons.mp hx' with rfl | hx''
      · exact le_trans (le_max_left x (rest.foldr max a)) (le_of_eq rfl)
      · calc x ≤ rest.foldr max a := ih a x (List.mem_cons_of_mem a hx'')
          _ ≤ max b (rest.foldr max a) := le_max_right _ _

theorem foldr_max_le {y : ℚ} (a : ℚ) (l : List ℚ) (h : ∀ x ∈ a :: l, x ≤ y) :
    l.foldr max a ≤ y := by
  induction l with
  | nil => exact h a (List.mem_cons_self a [])
  | cons b rest ih =>
    refine max_le (h b (by simp)) (ih (fun x hx => h x ?_))
    rcases List.mem_cons.mp hx with rfl | hx'
    · simp
    · simp [hx']

theorem foldr_min_le (a : ℚ) (l : List ℚ) : ∀ x ∈ a :: l, l.foldr min a ≤ x := by
  induction l generalizing a with
  | nil => simp
  | cons b rest ih =>
    intro x hx
    rcases List.mem_cons.mp hx with rfl | hx'
    · calc (b :: rest).foldr min x = min b (rest.foldr min x) := rfl
        _ ≤ rest.foldr min x := min_le_right _ _
        _ ≤ x := ih x x (List.mem_cons_self x rest)
    · rcases List.mem_cons.mp hx' with rfl | hx''
      · exact min_le_left x (rest.foldr min a)
      · calc min b (rest.foldr min a) ≤ rest.foldr min a := min_le_right _ _
          _ ≤ x := ih a x (List.mem_cons_of_mem a hx'')

theorem exists_between (lbs ubs : List ℚ) (h : ∀ x ∈ lbs, ∀ y ∈ ubs, x ≤ y) :
    ∃ t, (∀ x ∈ lbs, x ≤ t) ∧ (∀ y ∈ ubs, t ≤ y) := by
  rcases lbs with _ | ⟨a, l⟩
  · rcases ubs with _ | ⟨b, u⟩
    · exact ⟨0, by simp, by simp⟩
    · exact ⟨u.foldr min b, by simp, foldr_min_le b u⟩
  · refine ⟨l.foldr max a, le_foldr_max a l, fun y hy => foldr_max_le a l ?_⟩
    exact fun x hx => h x hx y hy

theorem satAll_cons (σ : ℕ → ℚ) (a : LinCons) (l : List LinCons) :
    satAll σ (a :: l) ↔ satRow σ a = true ∧ satAll σ l := by
  simp [satAll]

theorem satAll_append (σ : ℕ → ℚ) (l₁ l₂ : List LinCons) :
    satAll σ (l₁ ++ l₂) ↔ satAll σ l₁ ∧ satAll σ l₂ := by
  simp [satAll, or_imp, forall_and]

theorem classify_leq_sat (σ : ℕ → ℚ) {v : ℕ} {x y : LinCons}
    (h : fm_classify v x = .leq y) : (satRow σ y = true ↔ satRow σ x = true) := by
  obtain ⟨c, hc, h0, rfl, hcase⟩ := (classify_leq_iff v x y).mp h
  rcases hcase with ⟨-, hneg⟩ | ⟨-, -, hpos⟩
  · refine satRow_scale_pos σ x ?_
    rw [div_pos_iff]
    right
    exact ⟨by norm_num, hneg⟩
  · refine satRow_scale_neg σ x ?_
    rw [div_neg_iff]
    right
    exact ⟨by norm_num, hpos⟩

theorem classify_geq_sat (σ : ℕ → ℚ) {v : ℕ} {x y : LinCons}
    (h : fm_classify v x = .geq y) : (satRow σ y = true ↔ satRow σ x = true) := by
  obtain ⟨c, hc, h0, rfl, hcase⟩ := (classify_geq_iff v x y).mp h
  rcases hcase with ⟨-, hpos⟩ | ⟨-, -, hneg⟩
  · exact satRow_scale_pos σ x (by positivity)
  · refine satRow_scale_neg σ x ?_
    rw [div_neg_iff]
    left
    exact ⟨by norm_num, hneg⟩

theorem classify_dropped_iff (v : ℕ) (x : LinCons) :
    fm_classify v x = .dropped ↔
      ∃ c, getCoef x.body (some v) = some c ∧ c ≠ 0 ∧
        ¬x.lower.isSome ∧ ¬x.upper.isSome := by
  unfold fm_classify
  rcases hc : getCoef x.body (some v) with _ | c
  · simp
  · simp only [Option.some_inj, exists_eq_left']
    by_cases h0 : c = 0
    · subst h0
      simp
    · rw [if_neg h0]
      split_ifs with hl hneg hu hpos
      · simp [hl]
      · simp [hl]
      · simp [hu]
      · simp [hu]
      · simp [h0, hl, hu]

theorem classify_dropped_sat (σ : ℕ → ℚ) {v : ℕ} {x : LinCons}
    (h : fm_classify v x = .dropped) : satRow σ x = true := by
  obtain ⟨c, -, -, hl, hu⟩ := (classify_dropped_iff v x).mp h
  exact satRow_of_noBounds σ (Option.not_isSome_iff_eq_none.mp hl)
    (Option.not_isSome_iff_eq_none.mp hu)

theorem partition_sat_iff (v : ℕ) (rows : List LinCons) (σ : ℕ → ℚ) :
    (satAll σ (fm_partition v rows).1 ∧ satAll σ (fm_partition v rows).2.1 ∧
      satAll σ (fm_partition v rows).2.2) ↔ satAll σ rows := by
  induction rows with
  | nil => simp [fm_partition, satAll]
  | cons x rest ih =>
    rcases hcls : fm_classify v x with y | y | y | _ <;>
      simp only [fm_partition, hcls]
    · rw [satAll_cons, satAll_cons, classify_leq_sat σ hcls, and_assoc, ih]
    · rw [satAll_cons, satAll_cons, classify_geq_sat σ hcls, ← ih]
      tauto
    · obtain ⟨rfl, -⟩ := (classify_waiting_iff v x y).mp hcls
      rw [satAll_cons, satAll_cons, ← ih]
      tauto
    · rw [satAll_cons, ← ih]
      simp [classify_dropped_sat σ hcls]

theorem leq_nodup {v : ℕ} {rows : List LinCons} {r : LinCons}
    (hnd : ∀ x ∈ rows, (keysOf x.body).Nodup) (h : r ∈ (fm_partition v rows).1) :
    (keysOf r.body).Nodup := by
  obtain ⟨cons, hm, hcls⟩ := partition_mem_leq h
  obtain ⟨c, -, -, rfl, -⟩ := (classify_leq_iff v cons r).mp hcls
  rw [keysOf_scale]
  exact hnd cons hm

theorem geq_nodup {v : ℕ} {rows : List LinCons} {r : LinCons}
    (hnd : ∀ x ∈ rows, (keysOf x.body).Nodup) (h : r ∈ (fm_partition v rows).2.1) :
    (keysOf r.body).Nodup := by
  obtain ⟨cons, hm, hcls⟩ := partition_mem_geq h
  obtain ⟨c, -, -, rfl, -⟩ := (classify_geq_iff v cons r).mp hcls
  rw [keysOf_scale]
  exact hnd cons hm

theorem leq_row_sat (σ : ℕ → ℚ) (v : ℕ) (t : ℚ) {r : LinCons} {lv : ℚ}
    (hnd : (keysOf r.body).Nodup) (hl : r.lower = some lv) (hu : r.upper = none)
    (hc : getCoef r.body (some v) = some (-1)) :
    (satRow (Function.update σ v t) r = true ↔
      t ≤ evalBody (Function.update σ v 0) r.body - lv) := by
  rw [satRow_lowerOnly _ hl hu, evalBody_update r.body hnd σ v t, hc]
  simp only [Option.getD_some]
  constructor <;> intro h <;> linarith

theorem geq_row_sat (σ : ℕ → ℚ) (v : ℕ) (t : ℚ) {r : LinCons} {lv : ℚ}
    (hnd : (keysOf r.body).Nodup) (hl : r.lower = some lv) (hu : r.upper = none)
    (hc : getCoef r.body (some v) = some 1) :
    (satRow (Function.update σ v t) r = true ↔
      lv - evalBody (Function.update σ v 0) r.body ≤ t) := by
  rw [satRow_lowerOnly _ hl hu, evalBody_update r.body hnd σ v t, hc]
  simp only [Option.getD_some]
  constructor <;> intro h <;> linarith

theorem sum_row_iff (σ : ℕ → ℚ) (v : ℕ) {l g s : LinCons} {ll lg : ℚ}
    (hadd : add_linear_constraints l g = .ok s)
    (hnl : (keysOf l.body).Nodup) (hng : (keysOf g.body).Nodup)
    (hll : l.lower = some ll) (hlg : g.lower = some lg)
    (hlu : l.upper = none) (hgu : g.upper = none)
    (hlc : getCoef l.body (some v) = some (-1)) (hgc : getCoef g.body (some v) = some 1) :
    (satRow σ s = true ↔
      ll + lg ≤ evalBody (Function.update σ v 0) l.body
        + evalBody (Function.update σ v 0) g.body) := by
  obtain ⟨-, hsl, hsu⟩ := add_ok_fields hadd
  rw [hll, hlg] at hsl
  rw [hlu, hgu] at hsu
  have hsl' : s.lower = some (ll + lg) := by rw [hsl]
  have hsu' : s.upper = none := by rw [hsu]
  rw [satRow_lowerOnly σ hsl' hsu', add_ok_eval hadd hnl hng σ]
  have hel := evalBody_self_update l.body hnl σ v
  rw [hlc] at hel
  simp only [Option.getD_some] at hel
  have heg := evalBody_self_update g.body hng σ v
  rw [hgc] at heg
  simp only [Option.getD_some] at heg
  rw [hel, heg]
  constructor <;> intro h <;> linarith

theorem step_equiv (v : ℕ) (rows pairs : List LinCons) (σ : ℕ → ℚ)
    (hnd : ∀ r ∈ rows, (keysOf r.body).Nodup)
    (hone : ∀ r ∈ rows, oneSided r)
    (hps : pairSums (fm_partition v rows).1 (fm_partition v rows).2.1 = .ok pairs) :
    satAll σ (pairs ++ (fm_partition v rows).2.2) ↔
      ∃ t, satAll (Function.update σ v t) rows := by
  constructor
  · intro hsat
    have hcompat : ∀ x ∈ ((fm_partition v rows).2.1).map
        (fun g => (g.lower.getD 0) - evalBody (Function.update σ v 0) g.body),
        ∀ y ∈ ((fm_partition v rows).1).map
        (fun l => evalBody (Function.update σ v 0) l.body - (l.lower.getD 0)), x ≤ y := by
      rintro x hx y hy
      obtain ⟨g, hg, rfl⟩ := List.mem_map.mp hx
      obtain ⟨l, hl, rfl⟩ := List.mem_map.mp hy
      obtain ⟨s, hs, hadd⟩ := (pairSums_mem hps).2 l hl g hg
      obtain ⟨hli, hlu, hlc⟩ := leq_shape hone hl
      obtain ⟨hgi, hgu, hgc⟩ := geq_shape hone hg
      obtain ⟨ll, hll⟩ := Option.isSome_iff_exists.mp hli
      obtain ⟨lg, hlg⟩ := Option.isSome_iff_exists.mp hgi
      have hnl := leq_nodup hnd hl
      have hng := geq_nodup hnd hg
      have hsum := hsat s (List.mem_append_left _ hs)
      rw [sum_row_iff σ v hadd hnl hng hll hlg hlu hgu hlc hgc] at hsum
      rw [hll, hlg]
      simp only [Option.getD_some]
      linarith
    obtain ⟨t, hlb, hub⟩ := exists_between _ _ hcompat
    refine ⟨t, (partition_sat_iff v rows (Function.update σ v t)).mp ⟨?_, ?_, ?_⟩⟩
    · intro l hl
      obtain ⟨hli, hlu, hlc⟩ := leq_shape hone hl
      obtain ⟨ll, hll⟩ := Option.isSome_iff_exists.mp hli
      rw [leq_row_sat σ v t (leq_nodup hnd hl) hll hlu hlc]
      have := hub _ (List.mem_map_of_mem _ hl)
      rw [hll] at this
      simpa using this
    · intro g hg
      obtain ⟨hgi, hgu, hgc⟩ := geq_shape hone hg
      obtain ⟨lg, hlg⟩ := Option.isSome_iff_exists.mp hgi
      rw [geq_row_sat σ v t (geq_nodup hnd hg) hlg hgu hgc]
      have := hlb _ (List.mem_map_of_mem _ hg)
      rw [hlg] at this
      simpa using this
    · intro w hw
      rw [satRow_update_coefZero (hnd w (wait_shape hw).1) (wait_shape hw).2 σ t]
      exact hsat w (List.mem_append_right _ hw)
  · rintro ⟨t, hsat⟩
    obtain ⟨hp1, hp2, hwt⟩ := (partition_sat_iff v rows (Function.update σ v t)).mpr hsat
    intro r hr
    rcases List.mem_append.mp hr with hr | hr
    · obtain ⟨l, hl, g, hg, hadd⟩ := (pairSums_mem hps).1 r hr
      obtain ⟨hli, hlu, hlc⟩ := leq_shape hone hl
      obtain ⟨hgi, hgu, hgc⟩ := geq_shape hone hg
      obtain ⟨ll, hll⟩ := Option.isSome_iff_exists.mp hli
      obtain ⟨lg, hlg⟩ := Option.isSome_iff_exists.mp hgi
      have hnl := leq_nodup hnd hl
      have hng := geq_nodup hnd hg
      rw [sum_row_iff σ v hadd hnl hng hll hlg hlu hgu hlc hgc]
      have h1 := (leq_row_sat σ v t hnl hll hlu hlc).mp (hp1 l hl)
      have h2 := (geq_row_sat σ v t hng hlg hgu hgc).mp (hp2 g hg)
      linarith
    · rw [← satRow_update_coefZero (hnd r (wait_shape hr).1) (wait_shape hr).2 σ t]
      exact hwt r hr

theorem fm_equiv (vars : List ℕ) (rows out : List LinCons) (σ : ℕ → ℚ)
    (hnd : ∀ r ∈ rows, (keysOf r.body).Nodup)
    (hone : ∀ r ∈ rows, oneSided r)
    (hok : fm_elimination rows vars = .ok out) :
    satAll σ out ↔ ∃ τ : ℕ → ℚ, (∀ w, w ∉ vars → τ w = σ w) ∧ satAll τ rows := by
  induction vars generalizing rows σ with
  | nil =>
    cases hok
    constructor
    · intro h
      exact ⟨σ, fun w _ => rfl, h⟩
    · rintro ⟨τ, hagree, hτ⟩
      have he : τ = σ := funext (fun w => hagree w (by simp))
      rw [← he]
      exact hτ
  | cons v rest ih =>
    obtain ⟨pairs, hps, hrec⟩ := fm_ok_cons hok
    have hndmid : ∀ r ∈ pairs ++ (fm_partition v rows).2.2, (keysOf r.body).Nodup := by
      intro r hr
      rcases List.mem_append.mp hr with hr | hr
      · obtain ⟨l, hl, g, hg, hadd⟩ := (pairSums_mem hps).1 r hr
        obtain ⟨hbody, -, -⟩ := add_ok_fields hadd
        rw [hbody, keysOf_pairs]
        exact List.nodup_dedup _
      · exact hnd r (wait_shape hr).1
    have honemid := step_oneSided hone hps
    constructor
    · intro hout
      obtain ⟨τ, hagree, hτmid⟩ := (ih _ σ hndmid honemid hrec).mp hout
      obtain ⟨t, hτ'⟩ := (step_equiv v rows pairs τ hnd hone hps).mp hτmid
      refine ⟨Function.update τ v t, ?_, hτ'⟩
      intro w hw
      have hwv : w ≠ v := fun he => hw (by rw [he]; exact List.mem_cons_self v rest)
      rw [Function.update_noteq hwv]
      exact hagree w (fun hmem => hw (List.mem_cons_of_mem v hmem))
    · rintro ⟨τ, hagree, hτ⟩
      have hτmid : satAll τ (pairs ++ (fm_partition v rows).2.2) := by
        refine (step_equiv v rows pairs τ hnd hone hps).mpr ⟨τ v, ?_⟩
        rw [Function.update_eq_self]
        exact hτ
      have hτ'mid : satAll (Function.update τ v (σ v))
          (pairs ++ (fm_partition v rows).2.2) := by
        intro r hr
        rw [satRow_update_coefZero (hndmid r hr) (step_coefZero_new hps r hr) τ (σ v)]
        exact hτmid r hr
      have hagree' : ∀ w, w ∉ rest → Function.update τ v (σ v) w = σ w := by
        intro w hw
        by_cases hwv : w = v
        · rw [hwv, Function.update_same]
        · rw [Function.update_noteq hwv]
          refine hagree w (fun hmem => ?_)
          rcases List.mem_cons.mp hmem with he | hmem'
          · exact hwv he
          · exact hw hmem'
      exact (ih _ σ hndmid honemid hrec).mpr ⟨Function.update τ v (σ v), hagree', hτ'mid⟩

theorem preprocess_sat_iff (σ : ℕ → ℚ) (rows : List LinCons) :
    satAll σ (fm_preprocess rows) ↔ satAll σ rows := by
  unfold fm_preprocess
  rw [satAll_append]
  constructor
  · rintro ⟨h1, h2⟩ r hr
    have hm := h1 _ (List.mem_map_of_mem _ hr)
    by_cases hb : r.lower.isSome ∧ r.upper.isSome
    · rw [if_pos hb] at hm
      have hg := h2 _ (List.mem_map_of_mem _
        (List.mem_filter.mpr ⟨hr, by simp [hb.1, hb.2]⟩))
      rw [satRow_iff] at hm hg ⊢
      exact ⟨fun lv hlv => hm.1 lv hlv, fun uv huv => hg.2 uv huv⟩
    · rw [if_neg hb] at hm
      exact hm
  · intro h
    constructor
    · intro r' hr'
      obtain ⟨r, hr, rfl⟩ := List.mem_map.mp hr'
      by_cases hb : r.lower.isSome ∧ r.upper.isSome
      · rw [if_pos hb]
        have hs := h r hr
        rw [satRow_iff] at hs ⊢
        exact ⟨fun lv hlv => hs.1 lv hlv, fun uv huv => Option.noConfusion huv⟩
      · rw [if_neg hb]
        exact h r hr
    · intro r' hr'
      obtain ⟨r, hrf, rfl⟩ := List.mem_map.mp hr'
      have hs := h r (List.mem_filter.mp hrf).1
      rw [satRow_iff] at hs ⊢
      exact ⟨fun lv hlv => Option.noConfusion hlv, fun uv huv => hs.2 uv huv⟩

/-! ### Claim theorem: projection equivalence -/

/-- C1: over rows whose bodies carry no duplicate keys (as every body built
from a dict does), a successful run of `fourier_motzkin_elimination` returns
a system equivalent to the projection of the input system onto the
non-eliminated variables: a point satisfies every output row exactly when
its values can be changed on the eliminated variables so as to satisfy
every input row; in particular every point satisfying all input rows
satisfies every output row. -/
theorem claim_C1 (rows : List LinCons) (vars : List ℕ) (out : List LinCons) (σ : ℕ → ℚ)
    (hnd : ∀ r ∈ rows, (keysOf r.body).Nodup)
    (hok : fourier_motzkin_elimination rows vars = .ok out) :
    ((∀ r ∈ out, satRow σ r = true) ↔
      ∃ τ : ℕ → ℚ, (∀ w, w ∉ vars → τ w = σ w) ∧ ∀ r ∈ rows, satRow τ r = true) ∧
    ((∀ r ∈ rows, satRow σ r = true) → ∀ r ∈ out, satRow σ r = true) := by
  unfold fourier_motzkin_elimination at hok
  have hndp : ∀ r ∈ fm_preprocess rows, (keysOf r.body).Nodup := by
    intro r hr
    unfold fm_preprocess at hr
    rcases List.mem_append.mp hr with h | h
    · obtain ⟨c, hc, rfl⟩ := List.mem_map.mp h
      by_cases hb : c.lower.isSome ∧ c.upper.isSome
      · rw [if_pos hb]
        exact hnd c hc
      · rw [if_neg hb]
        exact hnd c hc
    · obtain ⟨c, hc, rfl⟩ := List.mem_map.mp h
      exact hnd c (List.mem_filter.mp hc).1
  have hmain := fm_equiv vars (fm_preprocess rows) out σ hndp (preprocess_oneSided rows) hok
  constructor
  · constructor
    · intro h
      obtain ⟨τ, ha, hτ⟩ := hmain.mp h
      exact ⟨τ, ha, (preprocess_sat_iff τ rows).mp hτ⟩
    · rintro ⟨τ, ha, hτ⟩
      exact hmain.mpr ⟨τ, ha, (preprocess_sat_iff τ rows).mpr hτ⟩
  · intro h
    exact hmain.mpr ⟨σ, fun w _ => rfl, (preprocess_sat_iff σ rows).mpr h⟩

/-- C1 witness: the projection of `x >= 0` and `-x >= -5` eliminating `x`,
checked at the zero assignment. -/
theorem claim_C1_witness :
    ((∀ r ∈ [(⟨[(some 0, 0), (none, 0)], some (-5), none⟩ : LinCons)],
        satRow (fun _ => 0) r = true) ↔
      ∃ τ : ℕ → ℚ, (∀ w, w ∉ [0] → τ w = (fun _ => (0 : ℚ)) w) ∧
        ∀ r ∈ [(⟨[(some 0, 1), (none, 0)], some 0, none⟩ : LinCons),
          ⟨[(some 0, -1), (none, 0)], some (-5), none⟩], satRow τ r = true) ∧
    ((∀ r ∈ [(⟨[(some 0, 1), (none, 0)], some 0, none⟩ : LinCons),
        ⟨[(some 0, -1), (none, 0)], some (-5), none⟩], satRow (fun _ => 0) r = true) →
      ∀ r ∈ [(⟨[(some 0, 0), (none, 0)], some (-5), none⟩ : LinCons)],
        satRow (fun _ => 0) r = true) :=
  claim_C1
    [⟨[(some 0, 1), (none, 0)], some 0, none⟩, ⟨[(some 0, -1), (none, 0)], some (-5), none⟩]
    [0] [⟨[(some 0, 0), (none, 0)], some (-5), none⟩] (fun _ => 0)
    (by with_unfolding_all decide) (by with_unfolding_all rfl)

end CuttingPlane
